import Mathlib

/-!
dbgo: schema comparison.

A shallow embedding of `internal/comparator/comparator.go` (and the parts of
`internal/database/database.go` and `internal/models/models.go` it uses).

Go strings are modelled by their sequence of code points: a Go `string` holding
valid UTF-8 text is a Lean `String`, and the functions of Go's `strings` package
are defined on the underlying `List Char`.
-/

namespace Dbgo

/-! ## Go standard library: `unicode.IsSpace` and package `strings` -/

/-- Go `unicode.IsSpace`: the Latin-1 spaces `\t \n \v \f \r`, space, U+0085, U+00A0,
and the other code points with the Unicode White_Space property. -/
def isSpace (c : Char) : Bool :=
  (9 ≤ c.toNat && c.toNat ≤ 13) || c.toNat == 0x20 || c.toNat == 0x85 || c.toNat == 0xA0 ||
  c.toNat == 0x1680 || (0x2000 ≤ c.toNat && c.toNat ≤ 0x200A) || c.toNat == 0x2028 ||
  c.toNat == 0x2029 || c.toNat == 0x202F || c.toNat == 0x205F || c.toNat == 0x3000

/-- Worker of `strings.ReplaceAll` for a non-empty `old`: scans left to right; at a
position where `old` matches, emits `new` and skips the matched characters (the
counter holds how many characters of the current match are still to be skipped), so
that matches never overlap. -/
def replaceAllAux (old new : List Char) : Nat → List Char → List Char
  | _, [] => []
  | k + 1, _ :: s => replaceAllAux old new k s
  | 0, c :: s =>
    if old.isPrefixOf (c :: s) then new ++ replaceAllAux old new (old.length - 1) s
    else c :: replaceAllAux old new 0 s

/-- Code points of `strings.ReplaceAll(s, old, new)`, for non-empty `old`. -/
def replaceAllRunes (s old new : List Char) : List Char :=
  replaceAllAux old new 0 s

/-- Code points version of `strings.Contains(s, substr)`. -/
def containsRunes : List Char → List Char → Bool
  | [], substr => substr.isPrefixOf []
  | c :: s, substr => substr.isPrefixOf (c :: s) || containsRunes s substr

/-- Code points version of `strings.Split(s, sep)` for a one-character separator: the
pieces between the occurrences of `sep`, always at least one piece. -/
def splitRunes (sep : Char) : List Char → List (List Char)
  | [] => [[]]
  | c :: s =>
    if c = sep then [] :: splitRunes sep s
    else match splitRunes sep s with
      | [] => [[c]]
      | l :: ls => (c :: l) :: ls

/-- Code points version of `strings.TrimSpace`: `TrimRightFunc(TrimLeftFunc(s, IsSpace), IsSpace)`. -/
def trimSpaceRunes (s : List Char) : List Char :=
  (s.dropWhile isSpace).rdropWhile isSpace

/-- Go `strings.ReplaceAll` (for non-empty `old`). -/
def strings.ReplaceAll (s old new : String) : String :=
  String.mk (replaceAllRunes s.data old.data new.data)

/-- Go `strings.Contains`. -/
def strings.Contains (s substr : String) : Bool :=
  containsRunes s.data substr.data

/-- Go `strings.Split`, for the one-character separators the program uses (the first
character of `sep`; an empty `sep` is not modelled and returns the string whole). -/
def strings.Split (s sep : String) : List String :=
  match sep.data with
  | [] => [s]
  | c :: _ => (splitRunes c s.data).map String.mk

/-- Go `strings.Join`. -/
def strings.Join (elems : List String) (sep : String) : String :=
  String.mk (sep.data.intercalate (elems.map String.data))

/-- Go `strings.TrimSpace`. -/
def strings.TrimSpace (s : String) : String :=
  String.mk (trimSpaceRunes s.data)

/-! ## `normalizeDefinition` -/

/-- The loop `for strings.Contains(result, "  ") { result = strings.ReplaceAll(result, "  ", " ") }`
with an iteration budget. -/
def collapseLoop : Nat → String → String
  | 0, result => result
  | fuel + 1, result =>
    if strings.Contains result "  " then collapseLoop fuel (strings.ReplaceAll result "  " " ")
    else result

/-- Source `normalizeDefinition`. The loop is given `result.length` iterations, which is
enough for it to end by its own condition (`collapseLoop_exits`). -/
def normalizeDefinition (definition : String) : String :=
  let result := strings.ReplaceAll definition "\t" " "
  let result := collapseLoop result.length result
  let result := strings.ReplaceAll result "\r\n" "\n"
  let lines := strings.Split result "\n"
  let lines := lines.map strings.TrimSpace
  let linesToString := strings.Join lines "\n"
  strings.TrimSpace linesToString

/-! ## Data model (`internal/models`, `internal/config`, `internal/database`) -/

/-- Source `models.SchemaObject` (the field `Type` is spelled `Type_`). -/
structure SchemaObject where
  Name : String
  Type_ : String
  Schema : String
  Content : String
  deriving DecidableEq, Repr

/-- Source `models.DiffResult`. -/
structure DiffResult where
  Object : SchemaObject
  Exists : Bool
  HasDifferences : Bool
  DifferenceScript : String
  deriving DecidableEq, Repr

/-- Source `config.DatabaseConfig`. -/
structure DatabaseConfig where
  Server : String
  Port : String
  User : String
  Password : String
  Database : String
  deriving DecidableEq, Repr

/-- Source `database.Database`. The connection `DB` is represented by what the server
answers to the queries the methods run: `queryObjects` is the catalog query of
`GetObjectsList` as a function of the kind list spliced into `IN (...)`, and
`GetObjectDefinition` and `GetTableDropStatement` are the results of the methods of
these names, whose bodies only run SQL. -/
structure Database where
  Config : DatabaseConfig
  queryObjects : String → Except String (List SchemaObject)
  GetObjectDefinition : SchemaObject → Except String String
  GetTableDropStatement : SchemaObject → Except String String

/-- The table `typeMapping` of `GetObjectsList`. -/
def typeMapping (objType : String) : Option String :=
  if objType = "TABLE" then some "'USER_TABLE'"
  else if objType = "VIEW" then some "'VIEW'"
  else if objType = "PROCEDURE" then some "'SQL_STORED_PROCEDURE'"
  else if objType = "FUNCTION" then
    some "'SQL_SCALAR_FUNCTION', 'SQL_INLINE_TABLE_VALUED_FUNCTION', 'SQL_TABLE_VALUED_FUNCTION'"
  else if objType = "TRIGGER" then some "'SQL_TRIGGER'"
  else none

/-- Source `(*Database).GetObjectsList`. -/
def Database.GetObjectsList (d : Database) (objectTypes : List String) :
    Except String (List SchemaObject) :=
  let sqlTypes := objectTypes.filterMap typeMapping
  if objectTypes.length > 0 then
    let typesStr := strings.Join sqlTypes ", "
    d.queryObjects typesStr
  else
    .ok []

/-! ## `generateDropStatement` -/

/-- Source `generateDropStatement`; the result is the Go pair `(dropStatement, err)`, with
`none` for a nil error. -/
def generateDropStatement (obj : SchemaObject) (db : Database) : String × Option String :=
  let r : String × Option String :=
    if obj.Type_ = "USER_TABLE" then
      match db.GetTableDropStatement obj with
      | .ok s => (s, none)
      | .error e => ("", some e)
    else if obj.Type_ = "VIEW" then
      ("IF OBJECT_ID('[" ++ obj.Schema ++ "].[" ++ obj.Name ++ "]', 'V') IS NOT NULL DROP VIEW [" ++
        obj.Schema ++ "].[" ++ obj.Name ++ "];", none)
    else if obj.Type_ = "SQL_STORED_PROCEDURE" then
      ("IF OBJECT_ID('[" ++ obj.Schema ++ "].[" ++ obj.Name ++ "]', 'P') IS NOT NULL DROP PROCEDURE [" ++
        obj.Schema ++ "].[" ++ obj.Name ++ "];", none)
    else if obj.Type_ = "SQL_SCALAR_FUNCTION" ∨ obj.Type_ = "SQL_INLINE_TABLE_VALUED_FUNCTION" ∨
        obj.Type_ = "SQL_TABLE_VALUED_FUNCTION" then
      ("IF OBJECT_ID('[" ++ obj.Schema ++ "].[" ++ obj.Name ++ "]', 'FN') IS NOT NULL DROP FUNCTION [" ++
        obj.Schema ++ "].[" ++ obj.Name ++ "];", none)
    else if obj.Type_ = "SQL_TRIGGER" then
      ("IF OBJECT_ID('[" ++ obj.Schema ++ "].[" ++ obj.Name ++ "]', 'TR') IS NOT NULL DROP TRIGGER [" ++
        obj.Schema ++ "].[" ++ obj.Name ++ "];", none)
    else
      ("-- Unknown object type: " ++ obj.Type_ ++ ". It must be deleted manually.", none)
  (r.1 ++ "\nGO", r.2)

/-! ## `Compare` -/

/-- Source `comparator.Comparator` (the mutex `ResultsMu` guards the appends to `Results`). -/
structure Comparator where
  SourceDB : Database
  TargetDB : Database
  Results : List DiffResult
  IsLoggingEnabled : Bool

/-- Source `NewComparator`. -/
def NewComparator (sourceDB targetDB : Database) (isLoggingEnabled : Bool) : Comparator :=
  { SourceDB := sourceDB, TargetDB := targetDB, Results := [], IsLoggingEnabled := isLoggingEnabled }

/-- The key `fmt.Sprintf("%s.%s.%s", obj.Schema, obj.Name, obj.Type)` of `targetObjectsMap`. -/
def objectKey (obj : SchemaObject) : String :=
  obj.Schema ++ "." ++ obj.Name ++ "." ++ obj.Type_

/-- The Go map `targetObjectsMap`, as an association list in which the entry nearest the
head is the one last written for its key. -/
abbrev ObjectsMap := List (String × SchemaObject)

/-- The loop of `Compare` that fills `targetObjectsMap`. -/
def buildTargetObjectsMap (targetObjects : List SchemaObject) : ObjectsMap :=
  targetObjects.foldl (fun m obj => (objectKey obj, obj) :: m) []

/-- The name `logs-<source>-<target>-<timestamp>` of the directory of the snapshots. -/
def logsDirName (c : Comparator) (timestamp : String) : String :=
  "logs-" ++ c.SourceDB.Config.Database ++ "-" ++ c.TargetDB.Config.Database ++ "-" ++ timestamp

/-- What one goroutine of `Compare` does: the `os.WriteFile` calls it makes (path and
content, in order) and the result it appends to `c.Results`, if any. -/
structure TaskEffect where
  files : List (String × String)
  appended : Option DiffResult
  deriving DecidableEq, Repr

/-- The body of the goroutine that `Compare` starts for the source object `obj`. A
`return` after a failed fetch ends the task with nothing appended; otherwise `result`
is appended when `result.HasDifferences` holds. -/
def compareObject (c : Comparator) (targetObjectsMap : ObjectsMap) (timestamp : String)
    (obj : SchemaObject) : TaskEffect :=
  let key := objectKey obj
  match targetObjectsMap.lookup key with
  | none =>
    let result : DiffResult :=
      { Object := obj, Exists := false, HasDifferences := false, DifferenceScript := "" }
    match c.SourceDB.GetObjectDefinition obj with
    | .error _ => { files := [], appended := none }
    | .ok sourceDefinition =>
      let result := { result with HasDifferences := true, DifferenceScript := sourceDefinition }
      { files := [], appended := if result.HasDifferences then some result else none }
  | some targetObj =>
    let result : DiffResult :=
      { Object := obj, Exists := true, HasDifferences := false, DifferenceScript := "" }
    match c.SourceDB.GetObjectDefinition obj with
    | .error _ => { files := [], appended := none }
    | .ok sourceDefinition =>
      match c.TargetDB.GetObjectDefinition targetObj with
      | .error _ => { files := [], appended := none }
      | .ok targetDefinition =>
        let normalizedSource := normalizeDefinition sourceDefinition
        let normalizedTarget := normalizeDefinition targetDefinition
        let sourceFiles :=
          if c.IsLoggingEnabled then
            [(logsDirName c timestamp ++ "/SOURCE-" ++ obj.Type_ ++ "-" ++ obj.Schema ++ "-" ++
                obj.Name ++ ".sql", normalizedSource)]
          else []
        if normalizedSource ≠ normalizedTarget then
          let targetFiles :=
            if c.IsLoggingEnabled then
              [(logsDirName c timestamp ++ "/TARGET-" ++ obj.Type_ ++ "-" ++ obj.Schema ++ "-" ++
                  obj.Name ++ ".sql", normalizedTarget)]
            else []
          match generateDropStatement obj c.SourceDB with
          | (_, some _) => { files := sourceFiles ++ targetFiles, appended := none }
          | (dropStatement, none) =>
            let result := { result with
              HasDifferences := true, DifferenceScript := dropStatement ++ "\n" ++ sourceDefinition }
            { files := sourceFiles ++ targetFiles,
              appended := if result.HasDifferences then some result else none }
        else
          { files := sourceFiles, appended := if result.HasDifferences then some result else none }

/-- The effect of the task of `obj` on the shared state `st`, which holds `c.Results`
and the snapshot files written so far: `c.Results = append(c.Results, result)`. -/
def taskStep (c : Comparator) (targetObjectsMap : ObjectsMap) (timestamp : String)
    (st : List DiffResult × List (String × String)) (obj : SchemaObject) :
    List DiffResult × List (String × String) :=
  let e := compareObject c targetObjectsMap timestamp obj
  (match e.appended with
    | some result => st.1 ++ [result]
    | none => st.1,
   st.2 ++ e.files)

/-- The state after the tasks of the objects `objs` have finished in this order: the
results appended to `Results` and the snapshot files written. -/
def runTasks (c : Comparator) (targetObjectsMap : ObjectsMap) (timestamp : String)
    (objs : List SchemaObject) : List DiffResult × List (String × String) :=
  objs.foldl (taskStep c targetObjectsMap timestamp) (c.Results, [])

/-- The two header lines that `Compare` writes to the output file. -/
def scriptHeader : String :=
  "-- Schema comparison script\n" ++ "-- Differences found between databases\n\n"

/-- The final loop of `Compare`: the text written to the output file for `Results`. -/
def writeResults (Results : List DiffResult) : String :=
  Results.foldl
    (fun out result =>
      out ++ ("-- Object: " ++ result.Object.Schema ++ "." ++ result.Object.Name ++ " (" ++
        result.Object.Type_ ++ ")\n") ++ result.DifferenceScript ++ "GO\n\n")
    ""

/-- The name `schema-diff-<source>-<target>-<types>-<timestamp>.sql` of the output file. -/
def outputFileName (c : Comparator) (objectTypes : List String) (timestamp : String) : String :=
  "schema-diff-" ++ c.SourceDB.Config.Database ++ "-" ++ c.TargetDB.Config.Database ++ "-" ++
    strings.Join objectTypes "-" ++ "-" ++ timestamp ++ ".sql"

/-- Outcomes of the file-system calls of `Compare`: `none` is success, `some e` the error. -/
structure FileSystem where
  MkdirAll : String → Option String
  Create : String → Option String

/-- What a run of `Compare` that returns nil leaves behind. -/
structure CompareRun where
  Results : List DiffResult
  fileName : String
  output : String
  snapshots : List (String × String)
  deriving DecidableEq, Repr

/-- Source `(*Comparator).Compare`. The goroutines only share `c.Results`, to which each
appends under the mutex, so a run is determined by the order in which they finish:
`order` maps the source listing to that order (a permutation of it). The result is the
returned error, or the state left by a run that returns nil. -/
def Compare (c : Comparator) (fs : FileSystem) (order : List SchemaObject → List SchemaObject)
    (objectTypes : List String) (timestamp : String) : Except String CompareRun :=
  match (if c.IsLoggingEnabled then fs.MkdirAll (logsDirName c timestamp) else none) with
  | some err => .error ("error creating logs directory: " ++ err)
  | none =>
    match c.SourceDB.GetObjectsList objectTypes with
    | .error err => .error ("error getting objects from source database: " ++ err)
    | .ok sourceObjects =>
      match c.TargetDB.GetObjectsList objectTypes with
      | .error err => .error ("error getting objects from target database: " ++ err)
      | .ok targetObjects =>
        let targetObjectsMap := buildTargetObjectsMap targetObjects
        let fileName := outputFileName c objectTypes timestamp
        match fs.Create fileName with
        | some err => .error ("error creating output file: " ++ err)
        | none =>
          let st := runTasks c targetObjectsMap timestamp (order sourceObjects)
          .ok { Results := st.1, fileName := fileName,
                output := scriptHeader ++ writeResults st.1, snapshots := st.2 }

/-! ## Functions used to state the properties -/

/-- The task of `obj` meets a failing fetch: the source definition cannot be fetched, or
the object is in the target mapping and the target definition cannot be fetched, or both
are fetched, their normalized forms differ, the object is a table and its drop statement
cannot be fetched. -/
def taskFails (c : Comparator) (targetObjectsMap : ObjectsMap) (obj : SchemaObject) : Prop :=
  (∃ e, c.SourceDB.GetObjectDefinition obj = .error e) ∨
  (∃ t e, targetObjectsMap.lookup (objectKey obj) = some t ∧
    c.TargetDB.GetObjectDefinition t = .error e) ∨
  (∃ t src tgt e, targetObjectsMap.lookup (objectKey obj) = some t ∧
    c.SourceDB.GetObjectDefinition obj = .ok src ∧ c.TargetDB.GetObjectDefinition t = .ok tgt ∧
    normalizeDefinition src ≠ normalizeDefinition tgt ∧ obj.Type_ = "USER_TABLE" ∧
    c.SourceDB.GetTableDropStatement obj = .error e)

/-- The statement `IF OBJECT_ID('[<schema>].[<name>]', '<code>') IS NOT NULL DROP <KEYWORD>
[<schema>].[<name>];` of the specification. -/
def dropTemplate (code keyword schema name : String) : String :=
  "IF OBJECT_ID('[" ++ schema ++ "].[" ++ name ++ "]', '" ++ code ++ "') IS NOT NULL DROP " ++
    keyword ++ " [" ++ schema ++ "].[" ++ name ++ "];"

/-! ### A sample run

Source: table `dbo.Orders` (absent from the target), view `dbo.V1` (same definition in the
target up to tabs), procedure `dbo.P1` (different body in the target) and table `dbo.Bad`
(its definition cannot be fetched); the view `dbo.V2` is used in a run of its own. -/

def demoOrders : SchemaObject := { Name := "Orders", Type_ := "USER_TABLE", Schema := "dbo", Content := "" }
def demoV1 : SchemaObject := { Name := "V1", Type_ := "VIEW", Schema := "dbo", Content := "" }
def demoP1 : SchemaObject :=
  { Name := "P1", Type_ := "SQL_STORED_PROCEDURE", Schema := "dbo", Content := "" }
def demoV2 : SchemaObject := { Name := "V2", Type_ := "VIEW", Schema := "dbo", Content := "" }
def demoBad : SchemaObject := { Name := "Bad", Type_ := "USER_TABLE", Schema := "dbo", Content := "" }

def demoSource : Database :=
  { Config := { Server := "localhost", Port := "1433", User := "sa", Password := "", Database := "src" }
    queryObjects := fun _ => .ok [demoP1, demoBad, demoOrders, demoV1]
    GetObjectDefinition := fun o =>
      if o.Name = "Orders" then .ok "CREATE TABLE [dbo].[Orders] (\n    [id] [int] NOT NULL\n);\nGO\n\n"
      else if o.Name = "V1" then .ok "CREATE VIEW V1 AS\tSELECT 1\r\n"
      else if o.Name = "P1" then .ok "CREATE PROCEDURE P1 AS SELECT 2"
      else if o.Name = "V2" then .ok "CREATE VIEW [dbo].[V2] AS SELECT 1"
      else .error "sql: no rows in result set"
    GetTableDropStatement := fun _ => .error "sql: no rows in result set" }

def demoTarget : Database :=
  { Config := { Server := "localhost", Port := "1433", User := "sa", Password := "", Database := "tgt" }
    queryObjects := fun _ => .ok [demoP1, demoV1]
    GetObjectDefinition := fun o =>
      if o.Name = "V1" then .ok "CREATE VIEW V1 AS SELECT 1\r\n"
      else if o.Name = "P1" then .ok "CREATE PROCEDURE P1 AS SELECT 1"
      else .error "sql: no rows in result set"
    GetTableDropStatement := fun _ => .error "sql: no rows in result set" }

def demoComparator : Comparator := NewComparator demoSource demoTarget false

def demoMap : ObjectsMap := buildTargetObjectsMap [demoP1, demoV1]

def demoFS : FileSystem := { MkdirAll := fun _ => none, Create := fun _ => none }

/-- The run in which the source lists the view `dbo.V2` alone and the target lists
nothing. -/
def viewOnlyComparator : Comparator :=
  NewComparator { demoSource with queryObjects := fun _ => .ok [demoV2] }
    { demoTarget with queryObjects := fun _ => .ok [] } false

/-- The run of the sample comparator with debug logging enabled. -/
def demoLoggingComparator : Comparator := NewComparator demoSource demoTarget true

/-- A server that rejects the catalog query when the kind list spliced into `IN (...)` is
empty, as SQL Server does, and otherwise lists the view `dbo.V1`. -/
def demoStrict : Database :=
  { demoSource with
    queryObjects := fun kinds =>
      if kinds = "" then .error "mssql: Incorrect syntax near ')'." else .ok [demoV1] }

/-- Two objects with the same schema, the same name and the same kind. -/
abbrev sameTriple (a b : SchemaObject) : Prop :=
  a.Schema = b.Schema ∧ a.Name = b.Name ∧ a.Type_ = b.Type_

/-- An object whose schema and name contain no dot. -/
abbrev dotFree (o : SchemaObject) : Prop :=
  '.' ∉ o.Schema.data ∧ '.' ∉ o.Name.data

/-- A source view named `orders` in the schema `sales.eu`. -/
def dotSource : SchemaObject := { Name := "orders", Type_ := "VIEW", Schema := "sales.eu", Content := "" }

/-- A target view named `eu.orders` in the schema `sales`. -/
def dotTarget : SchemaObject := { Name := "eu.orders", Type_ := "VIEW", Schema := "sales", Content := "" }

/-- A list of code points in which every run of one or more spaces is replaced by a
single space: a space that is followed by a space is dropped. -/
def collapseSpaceRuns : List Char → List Char
  | [] => []
  | a :: t =>
    if a = ' ' ∧ t.head? = some ' ' then collapseSpaceRuns t else a :: collapseSpaceRuns t

/-- The string `s` with every run of one or more spaces replaced by a single space. -/
def collapseSpaces (s : String) : String :=
  String.mk (collapseSpaceRuns s.data)

/-- The non-whitespace characters of a string, in order. -/
def nonSpaceChars (s : String) : List Char :=
  s.data.filter (fun c => !isSpace c)

/-- The lists of code points `normalizeDefinition` goes through after the loop:
CRLF replacement, split, per-line trim, join, trim. -/
def finishRunes (s : List Char) : List Char :=
  trimSpaceRunes
    (['\n'].intercalate ((splitRunes '\n' (replaceAllRunes s ['\r', '\n'] ['\n'])).map trimSpaceRunes))

/-- A list of code points that neither begins nor ends with a whitespace character. -/
def Trimmed (l : List Char) : Prop :=
  (∀ c, l.head? = some c → isSpace c = false) ∧ (∀ c, l.getLast? = some c → isSpace c = false)

/-- What may not stand side by side in a normalized text: two spaces, a whitespace
character other than LF right after an LF, or one right before an LF. -/
def Adj (a b : Char) : Prop :=
  ¬ (a = ' ' ∧ b = ' ') ∧ ¬ (a = '\n' ∧ isSpace b = true ∧ b ≠ '\n') ∧
  ¬ (isSpace a = true ∧ a ≠ '\n' ∧ b = '\n')

/-- The shape of the texts `normalizeDefinition` returns. -/
def Canonical (z : List Char) : Prop :=
  '\t' ∉ z ∧ List.Chain' Adj z ∧ Trimmed z

/-- Two lines of which the second may have one more CR at its end. -/
def UpToCR (l1 l2 : List Char) : Prop := l2 = l1 ∨ l2 = l1 ++ ['\r']

/-! ## Lemmas on the string functions -/

theorem replaceAllRunes_single (a b : Char) (s : List Char) :
    replaceAllRunes s [a] [b] = s.map (fun c => if c = a then b else c) := by
  unfold replaceAllRunes
  induction s with
  | nil => rfl
  | cons c s ih =>
    by_cases h : c = a
    · simp [replaceAllAux, List.isPrefixOf, h, ih]
    · have h2 : ¬ a = c := fun e => h e.symm
      simp [replaceAllAux, List.isPrefixOf, h, h2, ih]

theorem replaceAllRunes_nil (p q : Char) (n : List Char) :
    replaceAllRunes [] [p, q] n = [] := rfl

theorem replaceAllRunes_one (p q a : Char) (n : List Char) :
    replaceAllRunes [a] [p, q] n = [a] := by
  simp [replaceAllRunes, replaceAllAux, List.isPrefixOf]

theorem replaceAllRunes_two (p q a b : Char) (r n : List Char) :
    replaceAllRunes (a :: b :: r) [p, q] n =
      if a = p ∧ b = q then n ++ replaceAllRunes r [p, q] n
      else a :: replaceAllRunes (b :: r) [p, q] n := by
  by_cases h : a = p ∧ b = q
  · obtain ⟨rfl, rfl⟩ := h
    simp [replaceAllRunes, replaceAllAux, List.isPrefixOf]
  · rw [if_neg h]
    have h2 : ¬ (p = a ∧ q = b) := fun e => h ⟨e.1.symm, e.2.symm⟩
    simp [replaceAllRunes, replaceAllAux, List.isPrefixOf, h2]

/-! ### The space-collapsing loop -/

theorem head?_collapseSpaceRuns (s : List Char) : (collapseSpaceRuns s).head? = s.head? := by
  induction s with
  | nil => rfl
  | cons a t ih =>
    unfold collapseSpaceRuns
    split_ifs with h
    · rw [ih, h.2, h.1]; rfl
    · rfl

theorem collapseSpaceRuns_cons (a : Char) (t : List Char) :
    collapseSpaceRuns (a :: t) =
      if a = ' ' ∧ (collapseSpaceRuns t).head? = some ' ' then collapseSpaceRuns t
      else a :: collapseSpaceRuns t := by
  rw [head?_collapseSpaceRuns]; rfl

theorem collapseSpaceRuns_replace : ∀ (n : Nat) (s : List Char), s.length ≤ n →
    collapseSpaceRuns (replaceAllRunes s [' ', ' '] [' ']) = collapseSpaceRuns s
  | _, [], _ => rfl
  | _, [a], _ => by rw [replaceAllRunes_one]
  | 0, _ :: _ :: _, h => by simp at h
  | n + 1, a :: b :: r, h => by
    have hr : r.length ≤ n := by simp at h; omega
    have hbr : (b :: r).length ≤ n := by simp at h; simp; omega
    rw [replaceAllRunes_two]
    split_ifs with hab
    · obtain ⟨rfl, rfl⟩ := hab
      have ih := collapseSpaceRuns_replace n r hr
      simp only [List.singleton_append]
      rw [collapseSpaceRuns_cons, ih]
      conv_rhs => rw [collapseSpaceRuns]
      simp only [List.head?_cons, and_self, if_true]
      rw [collapseSpaceRuns_cons]
      simp
    · have ih := collapseSpaceRuns_replace n (b :: r) hbr
      rw [collapseSpaceRuns_cons, ih, ← collapseSpaceRuns_cons]

theorem collapseSpaceRuns_of_not_contains (s : List Char)
    (h : containsRunes s [' ', ' '] = false) : collapseSpaceRuns s = s := by
  induction s with
  | nil => rfl
  | cons a t ih =>
    simp only [containsRunes, Bool.or_eq_false_iff] at h
    rw [collapseSpaceRuns, ih h.2]
    have h1 := h.1
    cases t with
    | nil => simp
    | cons b r =>
      simp only [List.isPrefixOf, Bool.and_true, Bool.and_eq_false_imp, beq_iff_eq] at h1
      have : ¬ (a = ' ' ∧ (b :: r).head? = some ' ') := by
        rintro ⟨rfl, hb⟩
        simp only [List.head?_cons, Option.some.injEq] at hb
        exact absurd (h1 rfl) (by simp [hb])
      rw [if_neg this]

theorem length_replace_le : ∀ (n : Nat) (s : List Char), s.length ≤ n →
    (replaceAllRunes s [' ', ' '] [' ']).length ≤ s.length
  | _, [], _ => by simp [replaceAllRunes_nil]
  | _, [a], _ => by rw [replaceAllRunes_one]
  | 0, _ :: _ :: _, h => by simp at h
  | n + 1, a :: b :: r, h => by
    have hr : r.length ≤ n := by simp at h; omega
    have hbr : (b :: r).length ≤ n := by simp at h; simp; omega
    rw [replaceAllRunes_two]
    have ih1 := length_replace_le n r hr
    have ih2 := length_replace_le n (b :: r) hbr
    split_ifs with hab
    · simp; omega
    · simp at ih2 ⊢; omega

theorem length_replace_lt : ∀ (n : Nat) (s : List Char), s.length ≤ n →
    containsRunes s [' ', ' '] = true →
    (replaceAllRunes s [' ', ' '] [' ']).length < s.length
  | _, [], _, hc => by simp [containsRunes, List.isPrefixOf] at hc
  | _, [a], _, hc => by simp [containsRunes, List.isPrefixOf] at hc
  | 0, _ :: _ :: _, h, _ => by simp at h
  | n + 1, a :: b :: r, h, hc => by
    have hr : r.length ≤ n := by simp at h; omega
    have hbr : (b :: r).length ≤ n := by simp at h; simp; omega
    rw [replaceAllRunes_two]
    split_ifs with hab
    · have := length_replace_le n r hr
      simp; omega
    · have hc2 : containsRunes (b :: r) [' ', ' '] = true := by
        rw [containsRunes] at hc
        simp only [Bool.or_eq_true] at hc
        rcases hc with hc | hc
        · exfalso; apply hab
          simp only [List.isPrefixOf, Bool.and_true, Bool.and_eq_true, beq_iff_eq] at hc
          exact ⟨hc.1.symm, hc.2.symm⟩
        · exact hc
      have := length_replace_lt n (b :: r) hbr hc2
      simp at this ⊢; omega

theorem collapseLoop_data : ∀ (fuel : Nat) (s : String), s.length ≤ fuel →
    (collapseLoop fuel s).data = collapseSpaceRuns s.data
  | 0, s, h => by
    have : s.data = [] := by
      have h2 : s.data.length ≤ 0 := h
      exact List.length_eq_zero.mp (Nat.le_zero.mp h2)
    rw [collapseLoop, this]; rfl
  | fuel + 1, s, h => by
    unfold collapseLoop
    split_ifs with hc
    · have hc2 : containsRunes s.data [' ', ' '] = true := hc
      have hlt := length_replace_lt _ s.data le_rfl hc2
      have hlen : (strings.ReplaceAll s "  " " ").length ≤ fuel := by
        show (replaceAllRunes s.data [' ', ' '] [' ']).length ≤ fuel
        have : s.data.length ≤ fuel + 1 := h
        omega
      rw [collapseLoop_data fuel _ hlen]
      exact collapseSpaceRuns_replace _ s.data le_rfl
    · have hc2 : containsRunes s.data [' ', ' '] = false := Bool.eq_false_iff.mpr hc
      exact (collapseSpaceRuns_of_not_contains _ hc2).symm

/-! ### Split and join -/

theorem intercalate_cons_cons (sep : Char) (x y : List Char) (r : List (List Char)) :
    [sep].intercalate (x :: y :: r) = x ++ sep :: [sep].intercalate (y :: r) := by
  simp [List.intercalate, List.intersperse]

theorem intercalate_single (sep : Char) (x : List Char) : [sep].intercalate [x] = x := by
  simp [List.intercalate, List.intersperse]

theorem intercalate_cons_head (sep c : Char) (l : List Char) (ls : List (List Char)) :
    [sep].intercalate ((c :: l) :: ls) = c :: [sep].intercalate (l :: ls) := by
  cases ls with
  | nil => simp [intercalate_single]
  | cons y r => simp [intercalate_cons_cons]

theorem splitRunes_ne_nil (sep : Char) (s : List Char) : splitRunes sep s ≠ [] := by
  cases s with
  | nil => simp [splitRunes]
  | cons c s =>
    rw [splitRunes]
    split_ifs
    · simp
    · split <;> simp

theorem splitRunes_cons_sep (sep : Char) (s : List Char) :
    splitRunes sep (sep :: s) = [] :: splitRunes sep s := by
  simp [splitRunes]

theorem splitRunes_cons_ne (sep c : Char) (s l : List Char) (ls : List (List Char))
    (hc : c ≠ sep) (hs : splitRunes sep s = l :: ls) :
    splitRunes sep (c :: s) = (c :: l) :: ls := by
  rw [splitRunes, if_neg hc, hs]

theorem intercalate_splitRunes (sep : Char) (s : List Char) :
    [sep].intercalate (splitRunes sep s) = s := by
  induction s with
  | nil => simp [splitRunes, intercalate_single]
  | cons c s ih =>
    obtain ⟨l, ls, hs⟩ := List.exists_cons_of_ne_nil (splitRunes_ne_nil sep s)
    by_cases hc : c = sep
    · subst hc
      rw [splitRunes_cons_sep, hs, intercalate_cons_cons, ← hs, ih]; rfl
    · rw [splitRunes_cons_ne sep c s l ls hc hs, intercalate_cons_head, ← hs, ih]

/-- The first piece is a prefix of the string and every piece is contiguous in it. -/
theorem splitRunes_pieces (sep : Char) (s : List Char) :
    ∃ l ls, splitRunes sep s = l :: ls ∧ l <+: s ∧ ∀ m ∈ ls, m <:+: s := by
  induction s with
  | nil => exact ⟨[], [], rfl, List.prefix_refl _, by simp⟩
  | cons c s ih =>
    obtain ⟨l, ls, hs, hl, hls⟩ := ih
    by_cases hc : c = sep
    · subst hc
      refine ⟨[], l :: ls, by rw [splitRunes_cons_sep, hs], List.nil_prefix, ?_⟩
      intro m hm
      rcases List.mem_cons.mp hm with rfl | hm
      · exact hl.isInfix.trans (List.suffix_cons _ _).isInfix
      · exact (hls m hm).trans (List.suffix_cons _ _).isInfix
    · refine ⟨c :: l, ls, splitRunes_cons_ne sep c s l ls hc hs, ?_, ?_⟩
      · exact (List.prefix_cons_inj c).mpr hl
      · intro m hm
        exact (hls m hm).trans (List.suffix_cons _ _).isInfix

theorem infix_of_mem_splitRunes (sep : Char) (s l : List Char) (h : l ∈ splitRunes sep s) :
    l <:+: s := by
  obtain ⟨l0, ls, hs, hl, hls⟩ := splitRunes_pieces sep s
  rw [hs] at h
  rcases List.mem_cons.mp h with rfl | h
  · exact hl.isInfix
  · exact hls l h

theorem sep_not_mem_of_mem_splitRunes (sep : Char) (s l : List Char)
    (h : l ∈ splitRunes sep s) : sep ∉ l := by
  induction s generalizing l with
  | nil =>
    simp only [splitRunes, List.mem_singleton] at h
    subst h; simp
  | cons c s ih =>
    obtain ⟨l0, ls, hs⟩ := List.exists_cons_of_ne_nil (splitRunes_ne_nil sep s)
    by_cases hc : c = sep
    · subst hc
      rw [splitRunes_cons_sep] at h
      rcases List.mem_cons.mp h with rfl | h
      · simp
      · exact ih l h
    · rw [splitRunes_cons_ne sep c s l0 ls hc hs] at h
      rcases List.mem_cons.mp h with rfl | h
      · have := ih l0 (by rw [hs]; exact List.mem_cons_self _ _)
        simp only [List.mem_cons, not_or]
        exact ⟨fun e => hc e.symm, this⟩
      · exact ih l (by rw [hs]; exact List.mem_cons_of_mem _ h)

/-- The first piece starts where the string starts. -/
theorem head?_first_piece (sep : Char) (s l : List Char) (ls : List (List Char))
    (hs : splitRunes sep s = l :: ls) (b : Char) (hb : l.head? = some b) : s.head? = some b := by
  cases s with
  | nil =>
    simp only [splitRunes, List.cons.injEq] at hs
    rw [← hs.1] at hb; simp at hb
  | cons c s =>
    obtain ⟨l0, ls0, hs0⟩ := List.exists_cons_of_ne_nil (splitRunes_ne_nil sep s)
    by_cases hc : c = sep
    · subst hc
      rw [splitRunes_cons_sep] at hs
      simp only [List.cons.injEq] at hs
      rw [← hs.1] at hb; simp at hb
    · rw [splitRunes_cons_ne sep c s l0 ls0 hc hs0] at hs
      simp only [List.cons.injEq] at hs
      rw [← hs.1] at hb
      simpa using hb

/-- An empty first piece: the string is empty or starts with the separator. -/
theorem first_piece_nil (sep : Char) (s : List Char) (ls : List (List Char))
    (hs : splitRunes sep s = [] :: ls) : s = [] ∨ s.head? = some sep := by
  cases s with
  | nil => exact Or.inl rfl
  | cons c s =>
    obtain ⟨l0, ls0, hs0⟩ := List.exists_cons_of_ne_nil (splitRunes_ne_nil sep s)
    by_cases hc : c = sep
    · subst hc; exact Or.inr rfl
    · rw [splitRunes_cons_ne sep c s l0 ls0 hc hs0] at hs
      simp at hs

theorem mem_intercalate (sep c : Char) (ls : List (List Char))
    (h : c ∈ [sep].intercalate ls) : c = sep ∨ ∃ l ∈ ls, c ∈ l := by
  induction ls with
  | nil => simp [List.intercalate] at h
  | cons x r ih =>
    cases r with
    | nil =>
      rw [intercalate_single] at h
      exact Or.inr ⟨x, List.mem_cons_self _ _, h⟩
    | cons y r =>
      rw [intercalate_cons_cons] at h
      rcases List.mem_append.mp h with h | h
      · exact Or.inr ⟨x, List.mem_cons_self _ _, h⟩
      · rcases List.mem_cons.mp h with h | h
        · exact Or.inl h
        · rcases ih h with h | ⟨l, hl, hc⟩
          · exact Or.inl h
          · exact Or.inr ⟨l, List.mem_cons_of_mem _ hl, hc⟩

/-! ### Trimming -/

theorem trimSpaceRunes_contiguous (s : List Char) : trimSpaceRunes s <:+: s :=
  (List.rdropWhile_prefix isSpace _).isInfix.trans (List.dropWhile_suffix isSpace).isInfix

theorem trimmed_trimSpaceRunes (s : List Char) : Trimmed (trimSpaceRunes s) := by
  constructor
  · intro c hc
    unfold trimSpaceRunes at hc
    have hpre : List.rdropWhile isSpace (s.dropWhile isSpace) <+: s.dropWhile isSpace :=
      List.rdropWhile_prefix isSpace _
    have hhead := List.head?_dropWhile_not isSpace s
    cases hd : s.dropWhile isSpace with
    | nil => rw [hd] at hc; simp at hc
    | cons a t =>
      rw [hd] at hpre hc hhead
      simp only [List.head?_cons] at hhead
      cases hr : List.rdropWhile isSpace (a :: t) with
      | nil => rw [hr] at hc; simp at hc
      | cons a2 t2 =>
        rw [hr] at hpre hc
        obtain ⟨u, hu⟩ := hpre
        simp only [List.cons_append, List.cons.injEq] at hu
        simp only [List.head?_cons, Option.some.injEq] at hc
        rw [← hc, hu.1]; exact hhead
  · intro c hc
    unfold trimSpaceRunes at hc
    by_cases hne : List.rdropWhile isSpace (s.dropWhile isSpace) = []
    · rw [hne] at hc; simp at hc
    · have h := List.rdropWhile_last_not isSpace (s.dropWhile isSpace) hne
      rw [List.getLast?_eq_getLast _ hne] at hc
      simp only [Option.some.injEq] at hc
      rw [← hc]
      simpa using h

theorem trimSpaceRunes_of_trimmed (l : List Char) (h : Trimmed l) : trimSpaceRunes l = l := by
  unfold trimSpaceRunes
  have h1 : l.dropWhile isSpace = l := by
    cases l with
    | nil => rfl
    | cons a t =>
      have := h.1 a rfl
      simp [List.dropWhile_cons, this]
  rw [h1]
  rw [List.rdropWhile_eq_self_iff]
  intro hl
  have := h.2 (l.getLast hl) (List.getLast?_eq_getLast _ hl)
  simp [this]

theorem filter_dropWhile (p : Char → Bool) (s : List Char) :
    (s.dropWhile p).filter (fun c => !p c) = s.filter (fun c => !p c) := by
  induction s with
  | nil => rfl
  | cons a t ih =>
    by_cases h : p a = true
    · simp [List.dropWhile_cons, h, ih]
    · simp [List.dropWhile_cons, h]

theorem filter_rdropWhile (p : Char → Bool) (s : List Char) :
    (s.rdropWhile p).filter (fun c => !p c) = s.filter (fun c => !p c) := by
  unfold List.rdropWhile
  rw [List.filter_reverse, filter_dropWhile, List.filter_reverse, List.reverse_reverse]

theorem filter_trimSpaceRunes (s : List Char) :
    (trimSpaceRunes s).filter (fun c => !isSpace c) = s.filter (fun c => !isSpace c) := by
  unfold trimSpaceRunes
  rw [filter_rdropWhile, filter_dropWhile]

theorem trimSpaceRunes_concat_space (l : List Char) (c : Char) (hc : isSpace c = true) :
    trimSpaceRunes (l ++ [c]) = trimSpaceRunes l := by
  unfold trimSpaceRunes
  rw [List.dropWhile_append]
  split_ifs with h
  · have h2 : l.dropWhile isSpace = [] := by simpa using h
    simp [h2, List.dropWhile_cons, hc]
  · rw [List.rdropWhile_concat_pos _ _ _ hc]

/-! ### Adjacency conditions -/

theorem chain_contiguous (R : Char → Char → Prop) {l l1 : List Char} (h : List.Chain' R l)
    (hi : l1 <:+: l) : List.Chain' R l1 := by
  exact List.Chain'.infix h hi

theorem chain_of_forall_mem (R : Char → Char → Prop) (l : List Char)
    (h : ∀ a ∈ l, ∀ b ∈ l, R a b) : List.Chain' R l := by
  induction l with
  | nil => exact List.chain'_nil
  | cons a t ih =>
    rw [List.chain'_cons']
    refine ⟨?_, ih (fun x hx y hy => h x (List.mem_cons_of_mem _ hx) y (List.mem_cons_of_mem _ hy))⟩
    intro y hy
    exact h a (List.mem_cons_self _ _) y (List.mem_cons_of_mem _ (List.mem_of_mem_head? hy))

theorem chain_intercalate (R : Char → Char → Prop) (sep : Char) (ls : List (List Char))
    (h1 : ∀ l ∈ ls, List.Chain' R l)
    (h2 : ∀ l ∈ ls, ∀ a ∈ l.getLast?, R a sep)
    (h3 : ∀ l ∈ ls, ∀ b ∈ l.head?, R sep b)
    (h4 : R sep sep) :
    List.Chain' R ([sep].intercalate ls) ∧ ∀ b ∈ ([sep].intercalate ls).head?, R sep b := by
  induction ls with
  | nil => simp [List.intercalate]
  | cons x r ih =>
    cases r with
    | nil =>
      rw [intercalate_single]
      exact ⟨h1 x (List.mem_cons_self _ _), h3 x (List.mem_cons_self _ _)⟩
    | cons y r =>
      have ih2 := ih (fun l hl => h1 l (List.mem_cons_of_mem _ hl))
        (fun l hl => h2 l (List.mem_cons_of_mem _ hl))
        (fun l hl => h3 l (List.mem_cons_of_mem _ hl))
      rw [intercalate_cons_cons]
      constructor
      · rw [List.chain'_append]
        refine ⟨h1 x (List.mem_cons_self _ _), ?_, ?_⟩
        · rw [List.chain'_cons']
          exact ⟨ih2.2, ih2.1⟩
        · intro a ha b hb
          simp only [List.head?_cons, Option.mem_def, Option.some.injEq] at hb
          subst hb
          exact h2 x (List.mem_cons_self _ _) a ha
      · intro b hb
        cases x with
        | nil =>
          simp only [List.nil_append, List.head?_cons, Option.mem_def, Option.some.injEq] at hb
          subst hb; exact h4
        | cons a t =>
          exact h3 (a :: t) (List.mem_cons_self _ _) b (by simpa using hb)

/-! ### Replacing a two-character pattern -/

theorem pair_induction_aux {P : List Char → Prop} (p q : Char) (h0 : P []) (h1 : ∀ a, P [a])
    (hmatch : ∀ r, P r → P (p :: q :: r))
    (hnot : ∀ a b r, ¬ (a = p ∧ b = q) → P (b :: r) → P (a :: b :: r)) :
    ∀ (n : Nat) (s : List Char), s.length ≤ n → P s
  | _, [], _ => h0
  | _, [a], _ => h1 a
  | 0, _ :: _ :: _, h => by simp at h
  | n + 1, a :: b :: r, h => by
    have hr : r.length ≤ n := by simp at h; omega
    have hbr : (b :: r).length ≤ n := by simp at h; simp; omega
    by_cases hab : a = p ∧ b = q
    · obtain ⟨rfl, rfl⟩ := hab
      exact hmatch r (pair_induction_aux _ _ h0 h1 hmatch hnot n r hr)
    · exact hnot a b r hab (pair_induction_aux p q h0 h1 hmatch hnot n (b :: r) hbr)

/-- Induction along the scan of `strings.ReplaceAll` for a pattern of two characters. -/
theorem pair_induction {P : List Char → Prop} (p q : Char) (h0 : P []) (h1 : ∀ a, P [a])
    (hmatch : ∀ r, P r → P (p :: q :: r))
    (hnot : ∀ a b r, ¬ (a = p ∧ b = q) → P (b :: r) → P (a :: b :: r)) (s : List Char) : P s :=
  pair_induction_aux p q h0 h1 hmatch hnot s.length s le_rfl

theorem replaceAllRunes_match (p q : Char) (r n : List Char) :
    replaceAllRunes (p :: q :: r) [p, q] n = n ++ replaceAllRunes r [p, q] n := by
  rw [replaceAllRunes_two]; simp

theorem replaceAllRunes_skip (p q a b : Char) (r n : List Char) (h : ¬ (a = p ∧ b = q)) :
    replaceAllRunes (a :: b :: r) [p, q] n = a :: replaceAllRunes (b :: r) [p, q] n := by
  rw [replaceAllRunes_two, if_neg h]

theorem replaceAllRunes_cons_of_not (p q a : Char) (t n : List Char)
    (h : ¬ (a = p ∧ t.head? = some q)) :
    replaceAllRunes (a :: t) [p, q] n = a :: replaceAllRunes t [p, q] n := by
  cases t with
  | nil => rw [replaceAllRunes_one, replaceAllRunes_nil]
  | cons b r =>
    apply replaceAllRunes_skip
    intro hab; apply h
    simp [hab.1, hab.2]

theorem replaceAllRunes_of_chain (p q : Char) (n z : List Char)
    (h : List.Chain' (fun a b => ¬ (a = p ∧ b = q)) z) : replaceAllRunes z [p, q] n = z := by
  induction z with
  | nil => rfl
  | cons a t ih =>
    rw [List.chain'_cons'] at h
    rw [replaceAllRunes_cons_of_not, ih h.2]
    rintro ⟨ha, ht⟩
    exact h.1 _ ht ⟨ha, rfl⟩

theorem replaceAllRunes_sublist (p q : Char) (s : List Char) :
    (replaceAllRunes s [p, q] [q]).Sublist s := by
  induction s using pair_induction p q with
  | h0 => exact List.Sublist.refl _
  | h1 a => rw [replaceAllRunes_one]
  | hmatch r ih =>
    rw [replaceAllRunes_match]
    exact List.Sublist.cons _ (List.Sublist.cons₂ _ ih)
  | hnot a b r hab ih =>
    rw [replaceAllRunes_skip _ _ _ _ _ _ hab]
    exact List.Sublist.cons₂ _ ih

theorem replaceAllRunes_chain (R : Char → Char → Prop) (p q : Char) (hR : ∀ a, R a q)
    (s : List Char) :
    List.Chain' R s →
      List.Chain' R (replaceAllRunes s [p, q] [q]) ∧
      ∀ b, (replaceAllRunes s [p, q] [q]).head? = some b → b = q ∨ s.head? = some b := by
  induction s using pair_induction p q with
  | h0 => intro h; exact ⟨h, fun b hb => Or.inr hb⟩
  | h1 a => intro h; rw [replaceAllRunes_one]; exact ⟨h, fun b hb => Or.inr hb⟩
  | hmatch r ih =>
    intro h
    rw [replaceAllRunes_match]
    rw [List.chain'_cons', List.chain'_cons'] at h
    obtain ⟨hc, hh⟩ := ih h.2.2
    refine ⟨?_, fun b hb => Or.inl (by simpa using hb.symm)⟩
    simp only [List.singleton_append]
    rw [List.chain'_cons']
    refine ⟨?_, hc⟩
    intro b hb
    rcases hh b hb with rfl | hb2
    · exact hR _
    · exact h.2.1 b hb2
  | hnot a b r hab ih =>
    intro h
    rw [replaceAllRunes_skip _ _ _ _ _ _ hab]
    rw [List.chain'_cons'] at h
    obtain ⟨hc, hh⟩ := ih h.2
    refine ⟨?_, fun c hc2 => Or.inr (by simpa using hc2)⟩
    rw [List.chain'_cons']
    refine ⟨?_, hc⟩
    intro c hc2
    rcases hh c hc2 with rfl | hb2
    · exact hR _
    · exact h.1 c hb2

theorem filter_replace_crlf (s : List Char) :
    (replaceAllRunes s ['\r', '\n'] ['\n']).filter (fun c => !isSpace c) =
      s.filter (fun c => !isSpace c) := by
  induction s using pair_induction '\r' '\n' with
  | h0 => rfl
  | h1 a => rw [replaceAllRunes_one]
  | hmatch r ih =>
    rw [replaceAllRunes_match]
    have h1 : isSpace '\r' = true := by decide
    have h2 : isSpace '\n' = true := by decide
    simp [List.filter_cons, h1, h2, ih]
  | hnot a b r hab ih =>
    rw [replaceAllRunes_skip _ _ _ _ _ _ hab]
    simp only [List.filter_cons, ih]

/-! ### Collapsed runs of spaces -/

theorem collapseSpaceRuns_sublist (s : List Char) : (collapseSpaceRuns s).Sublist s := by
  induction s with
  | nil => exact List.Sublist.refl _
  | cons a t ih =>
    rw [collapseSpaceRuns]
    split_ifs
    · exact List.Sublist.cons _ ih
    · exact List.Sublist.cons₂ _ ih

theorem collapseSpaceRuns_chain (s : List Char) :
    List.Chain' (fun a b => ¬ (a = ' ' ∧ b = ' ')) (collapseSpaceRuns s) := by
  induction s with
  | nil => exact List.chain'_nil
  | cons a t ih =>
    rw [collapseSpaceRuns]
    split_ifs with h
    · exact ih
    · rw [List.chain'_cons']
      refine ⟨?_, ih⟩
      intro y hy
      rw [Option.mem_def, head?_collapseSpaceRuns] at hy
      rintro ⟨ha, rfl⟩
      exact h ⟨ha, hy⟩

theorem collapseSpaceRuns_of_chain (z : List Char)
    (h : List.Chain' (fun a b => ¬ (a = ' ' ∧ b = ' ')) z) : collapseSpaceRuns z = z := by
  induction z with
  | nil => rfl
  | cons a t ih =>
    rw [List.chain'_cons'] at h
    rw [collapseSpaceRuns, ih h.2, if_neg]
    rintro ⟨ha, ht⟩
    exact h.1 _ ht ⟨ha, rfl⟩

theorem filter_collapseSpaceRuns (s : List Char) :
    (collapseSpaceRuns s).filter (fun c => !isSpace c) = s.filter (fun c => !isSpace c) := by
  induction s with
  | nil => rfl
  | cons a t ih =>
    rw [collapseSpaceRuns]
    split_ifs with h
    · have h1 : isSpace ' ' = true := by decide
      rw [ih, h.1]
      simp [List.filter_cons, h1]
    · simp only [List.filter_cons, ih]

theorem not_contains_of_chain (z : List Char)
    (h : List.Chain' (fun a b => ¬ (a = ' ' ∧ b = ' ')) z) :
    containsRunes z [' ', ' '] = false := by
  induction z with
  | nil => rfl
  | cons a t ih =>
    rw [List.chain'_cons'] at h
    rw [containsRunes, ih h.2, Bool.or_false]
    cases t with
    | nil => simp [List.isPrefixOf]
    | cons b r =>
      have := h.1 b rfl
      simp only [List.isPrefixOf, Bool.and_true, Bool.and_eq_false_imp, beq_iff_eq]
      intro ha
      simp only [beq_eq_false_iff_ne, ne_eq]
      intro hb
      exact this ⟨ha.symm, hb.symm⟩

/-- The loop of `normalizeDefinition` ends by its own condition: with a budget of at least
the length of the string, the result contains no two consecutive spaces. -/
theorem collapseLoop_exits (fuel : Nat) (s : String) (h : s.length ≤ fuel) :
    strings.Contains (collapseLoop fuel s) "  " = false := by
  show containsRunes (collapseLoop fuel s).data [' ', ' '] = false
  rw [collapseLoop_data fuel s h]
  exact not_contains_of_chain _ (collapseSpaceRuns_chain _)

/-- A larger budget does not change the result of the loop. -/
theorem collapseLoop_budget (fuel : Nat) (s : String) (h : s.length ≤ fuel) :
    collapseLoop fuel s = collapseLoop s.length s := by
  apply String.ext
  rw [collapseLoop_data fuel s h, collapseLoop_data s.length s le_rfl]

/-! ### The lines of a canonical text -/

theorem lines_aux (z : List Char) :
    List.Chain' Adj z → (∀ a, z.getLast? = some a → isSpace a = false) →
    ∃ l0 ls0, splitRunes '\n' z = l0 :: ls0 ∧
      (∀ a, l0.getLast? = some a → isSpace a = false) ∧ ∀ l ∈ ls0, Trimmed l := by
  induction z with
  | nil =>
    intro _ _
    exact ⟨[], [], rfl, by simp, by simp⟩
  | cons c s ih =>
    intro hch hlast
    rw [List.chain'_cons'] at hch
    have hlast2 : ∀ a, s.getLast? = some a → isSpace a = false := by
      intro a ha
      apply hlast a
      cases s with
      | nil => simp at ha
      | cons b r => rw [List.getLast?_cons_cons]; exact ha
    obtain ⟨l0, ls0, hs, hl0, hls0⟩ := ih hch.2 hlast2
    have hnl0 : '\n' ∉ l0 :=
      sep_not_mem_of_mem_splitRunes '\n' s l0 (by rw [hs]; exact List.mem_cons_self _ _)
    by_cases hc : c = '\n'
    · subst hc
      refine ⟨[], l0 :: ls0, by rw [splitRunes_cons_sep, hs], by simp, ?_⟩
      intro l hl
      rcases List.mem_cons.mp hl with rfl | hl
      · refine ⟨?_, hl0⟩
        intro b hb
        have hb2 := head?_first_piece '\n' s l ls0 hs b hb
        have hadj := (hch.1 b hb2).2.1
        have hbne : b ≠ '\n' := fun e => hnl0 (e ▸ List.mem_of_mem_head? hb)
        by_contra hsp
        exact hadj ⟨rfl, by simpa using hsp, hbne⟩
      · exact hls0 l hl
    · refine ⟨c :: l0, ls0, splitRunes_cons_ne '\n' c s l0 ls0 hc hs, ?_, hls0⟩
      intro a ha
      cases l0 with
      | nil =>
        simp only [List.getLast?_singleton, Option.some.injEq] at ha
        subst ha
        rcases first_piece_nil '\n' s ls0 hs with rfl | hh
        · exact hlast c rfl
        · have hadj := (hch.1 _ hh).2.2
          by_contra hsp
          exact hadj ⟨by simpa using hsp, hc, rfl⟩
      | cons b r =>
        rw [List.getLast?_cons_cons] at ha
        exact hl0 a ha

theorem lines_trimmed (z : List Char) (hch : List.Chain' Adj z) (ht : Trimmed z) :
    ∀ l ∈ splitRunes '\n' z, Trimmed l := by
  obtain ⟨l0, ls0, hs, hl0, hls0⟩ := lines_aux z hch ht.2
  intro l hl
  rw [hs] at hl
  rcases List.mem_cons.mp hl with rfl | hl
  · exact ⟨fun b hb => ht.1 b (head?_first_piece '\n' z l ls0 hs b hb), hl0⟩
  · exact hls0 l hl

/-- On a canonical text every step after the loop of `normalizeDefinition` is the identity. -/
theorem finishRunes_of_canonical (z : List Char) (h : Canonical z) : finishRunes z = z := by
  obtain ⟨_, hch, ht⟩ := h
  have hcrlf : replaceAllRunes z ['\r', '\n'] ['\n'] = z := by
    apply replaceAllRunes_of_chain
    refine hch.imp ?_
    intro a b hab hcr
    refine hab.2.2 ⟨?_, ?_, hcr.2⟩
    · rw [hcr.1]; decide
    · rw [hcr.1]; decide
  unfold finishRunes
  rw [hcrlf]
  have hmap : (splitRunes '\n' z).map trimSpaceRunes = splitRunes '\n' z := by
    conv_rhs => rw [← List.map_id (splitRunes '\n' z)]
    apply List.map_congr_left
    intro l hl
    exact trimSpaceRunes_of_trimmed l (lines_trimmed z hch ht l hl)
  rw [hmap, intercalate_splitRunes, trimSpaceRunes_of_trimmed z ht]

/-- The steps after the loop of `normalizeDefinition` produce a canonical text. -/
theorem canonical_finishRunes (x : List Char) (htab : '\t' ∉ x)
    (hx : List.Chain' (fun a b => ¬ (a = ' ' ∧ b = ' ')) x) : Canonical (finishRunes x) := by
  have hy := (replaceAllRunes_chain (fun a b => ¬ (a = ' ' ∧ b = ' ')) '\r' '\n'
    (fun a h => absurd h.2 (by decide)) x hx).1
  have hysub := replaceAllRunes_sublist '\r' '\n' x
  have hline : ∀ l ∈ (splitRunes '\n' (replaceAllRunes x ['\r', '\n'] ['\n'])).map trimSpaceRunes,
      '\n' ∉ l ∧ '\t' ∉ l ∧ Trimmed l ∧ List.Chain' (fun a b => ¬ (a = ' ' ∧ b = ' ')) l := by
    intro l hl
    obtain ⟨l0, hl0, rfl⟩ := List.mem_map.mp hl
    have hin := infix_of_mem_splitRunes _ _ _ hl0
    have hnl := sep_not_mem_of_mem_splitRunes _ _ _ hl0
    have htr := trimSpaceRunes_contiguous l0
    refine ⟨fun h => hnl (htr.subset h), ?_, trimmed_trimSpaceRunes l0, ?_⟩
    · exact fun h => htab (hysub.subset (hin.subset (htr.subset h)))
    · exact chain_contiguous _ (chain_contiguous _ hy hin) htr
  have hJ := (chain_intercalate Adj '\n' _
    (fun l hl => by
      obtain ⟨hnl, _, _, hc⟩ := hline l hl
      rw [List.Chain'.iff_mem] at hc
      refine hc.imp ?_
      rintro a b ⟨ha, hb, hab⟩
      refine ⟨hab, ?_, ?_⟩
      · rintro ⟨rfl, _⟩; exact hnl ha
      · rintro ⟨_, _, rfl⟩; exact hnl hb)
    (fun l hl a ha => by
      obtain ⟨_, _, htl, _⟩ := hline l hl
      refine ⟨fun h => absurd h.2 (by decide), fun h => h.2.2 rfl, ?_⟩
      rintro ⟨hsp, _, _⟩
      rw [htl.2 a ha] at hsp; exact Bool.noConfusion hsp)
    (fun l hl b hb => by
      obtain ⟨_, _, htl, _⟩ := hline l hl
      refine ⟨fun h => absurd h.1 (by decide), ?_, fun h => h.2.1 rfl⟩
      rintro ⟨_, hsp, _⟩
      rw [htl.1 b hb] at hsp; exact Bool.noConfusion hsp)
    ⟨fun h => absurd h.1 (by decide), fun h => h.2.2 rfl, fun h => h.2.1 rfl⟩).1
  unfold finishRunes
  refine ⟨?_, chain_contiguous _ hJ (trimSpaceRunes_contiguous _), trimmed_trimSpaceRunes _⟩
  intro h
  rcases mem_intercalate _ _ _ ((trimSpaceRunes_contiguous _).subset h) with h | ⟨l, hl, hc⟩
  · exact absurd h (by decide)
  · exact (hline l hl).2.1 hc

/-! ### `normalizeDefinition` on code points -/

theorem split_newline (s : String) :
    strings.Split s "\n" = (splitRunes '\n' s.data).map String.mk := rfl

theorem contains_two_spaces (s : String) :
    strings.Contains s "  " = containsRunes s.data [' ', ' '] := rfl

theorem normalizeDefinition_data (s : String) :
    (normalizeDefinition s).data =
      finishRunes (collapseSpaceRuns (s.data.map (fun c => if c = '\t' then ' ' else c))) := by
  have h1 : (strings.ReplaceAll s "\t" " ").data =
      s.data.map (fun c => if c = '\t' then ' ' else c) := replaceAllRunes_single '\t' ' ' s.data
  have h2 := collapseLoop_data (strings.ReplaceAll s "\t" " ").length
    (strings.ReplaceAll s "\t" " ") le_rfl
  rw [h1] at h2
  unfold normalizeDefinition
  simp only [split_newline]
  show trimSpaceRunes (['\n'].intercalate _) = _
  unfold finishRunes
  congr 2
  rw [List.map_map, List.map_map]
  show List.map _ (splitRunes '\n' (replaceAllRunes (collapseLoop _ _).data ['\r', '\n'] ['\n'])) = _
  rw [h2]
  apply List.map_congr_left
  intro l _
  rfl

theorem tab_not_mem_map (s : List Char) :
    '\t' ∉ s.map (fun c => if c = '\t' then ' ' else c) := by
  intro h
  obtain ⟨c, _, hc⟩ := List.mem_map.mp h
  by_cases h2 : c = '\t'
  · rw [if_pos h2] at hc; exact absurd hc (by decide)
  · rw [if_neg h2] at hc; exact h2 hc

theorem map_tab_of_not_mem (z : List Char) (h : '\t' ∉ z) :
    z.map (fun c => if c = '\t' then ' ' else c) = z := by
  conv_rhs => rw [← List.map_id z]
  apply List.map_congr_left
  intro c hc
  have : c ≠ '\t' := fun e => h (e ▸ hc)
  simp [this]

theorem canonical_normalizeDefinition (s : String) : Canonical (normalizeDefinition s).data := by
  rw [normalizeDefinition_data]
  apply canonical_finishRunes
  · exact fun h => tab_not_mem_map s.data ((collapseSpaceRuns_sublist _).subset h)
  · exact collapseSpaceRuns_chain _

theorem normalize_of_canonical (s : String) (h : Canonical s.data) : normalizeDefinition s = s := by
  apply String.ext
  rw [normalizeDefinition_data, map_tab_of_not_mem _ h.1,
    collapseSpaceRuns_of_chain _ (h.2.1.imp (fun _ _ hab => hab.1)), finishRunes_of_canonical _ h]

theorem filter_intercalate_map (p : Char → Bool) (sep : Char) (g : List Char → List Char)
    (hg : ∀ l, (g l).filter p = l.filter p) (ls : List (List Char)) :
    ([sep].intercalate (ls.map g)).filter p = ([sep].intercalate ls).filter p := by
  induction ls with
  | nil => rfl
  | cons x r ih =>
    cases r with
    | nil => simp [intercalate_single, hg]
    | cons y r =>
      rw [List.map_cons, List.map_cons, intercalate_cons_cons, intercalate_cons_cons,
        List.filter_append, List.filter_append, hg, List.filter_cons, List.filter_cons,
        ← List.map_cons, ih]

theorem filter_map_tab (s : List Char) :
    (s.map (fun c => if c = '\t' then ' ' else c)).filter (fun c => !isSpace c) =
      s.filter (fun c => !isSpace c) := by
  induction s with
  | nil => rfl
  | cons a t ih =>
    have h1 : isSpace ' ' = true := by decide
    have h2 : isSpace '\t' = true := by decide
    by_cases h : a = '\t'
    · subst h
      simp [List.filter_cons, h1, h2, ih]
    · simp only [List.map_cons, if_neg h, List.filter_cons, ih]

theorem filter_finishRunes (x : List Char) :
    (finishRunes x).filter (fun c => !isSpace c) = x.filter (fun c => !isSpace c) := by
  unfold finishRunes
  rw [filter_trimSpaceRunes, filter_intercalate_map _ _ _ filter_trimSpaceRunes,
    intercalate_splitRunes, filter_replace_crlf]

/-! ### Whitespace variants of a text -/

theorem map_tab_replace_crlf (x : List Char) :
    (replaceAllRunes x ['\r', '\n'] ['\n']).map (fun c => if c = '\t' then ' ' else c) =
      replaceAllRunes (x.map (fun c => if c = '\t' then ' ' else c)) ['\r', '\n'] ['\n'] := by
  induction x using pair_induction '\r' '\n' with
  | h0 => rfl
  | h1 a => rw [replaceAllRunes_one, List.map_singleton, replaceAllRunes_one]
  | hmatch r ih =>
    rw [replaceAllRunes_match]
    simp only [List.map_cons, List.singleton_append]
    rw [ih]
    exact (replaceAllRunes_match '\r' '\n' _ ['\n']).symm
  | hnot a b r hab ih =>
    rw [replaceAllRunes_skip _ _ _ _ _ _ hab, List.map_cons, ih]
    simp only [List.map_cons]
    symm
    apply replaceAllRunes_skip
    · rintro ⟨ha, hb⟩
      apply hab
      constructor
      · by_cases h : a = '\t'
        · rw [if_pos h] at ha; exact absurd ha (by decide)
        · rw [if_neg h] at ha; exact ha
      · by_cases h : b = '\t'
        · rw [if_pos h] at hb; exact absurd hb (by decide)
        · rw [if_neg h] at hb; exact hb

theorem head?_replace_crlf_space (t : List Char) :
    (replaceAllRunes t ['\r', '\n'] ['\n']).head? = some ' ' ↔ t.head? = some ' ' := by
  cases t with
  | nil => rfl
  | cons b r =>
    cases r with
    | nil => rw [replaceAllRunes_one]
    | cons c r =>
      rw [replaceAllRunes_two]
      split_ifs with h
      · rw [h.1]
        simp only [List.singleton_append, List.head?_cons, Option.some.injEq]
        constructor <;> intro e <;> exact absurd e (by decide)
      · rfl

theorem collapseSpaceRuns_replace_crlf (x : List Char) :
    collapseSpaceRuns (replaceAllRunes x ['\r', '\n'] ['\n']) =
      replaceAllRunes (collapseSpaceRuns x) ['\r', '\n'] ['\n'] := by
  induction x using pair_induction '\r' '\n' with
  | h0 => rfl
  | h1 a =>
    rw [replaceAllRunes_one]
    have : collapseSpaceRuns [a] = [a] := by simp [collapseSpaceRuns]
    rw [this, replaceAllRunes_one]
  | hmatch r ih =>
    rw [replaceAllRunes_match]
    have e1 : collapseSpaceRuns (['\n'] ++ replaceAllRunes r ['\r', '\n'] ['\n']) =
        '\n' :: collapseSpaceRuns (replaceAllRunes r ['\r', '\n'] ['\n']) := by
      rw [List.singleton_append, collapseSpaceRuns, if_neg]
      exact fun h => absurd h.1 (by decide)
    have e2 : collapseSpaceRuns ('\r' :: '\n' :: r) = '\r' :: '\n' :: collapseSpaceRuns r := by
      rw [collapseSpaceRuns, if_neg (fun h => absurd h.1 (by decide)), collapseSpaceRuns,
        if_neg (fun h => absurd h.1 (by decide))]
    rw [e1, e2, replaceAllRunes_match, ih]; rfl
  | hnot a b r hab ih =>
    rw [replaceAllRunes_skip _ _ _ _ _ _ hab]
    rw [collapseSpaceRuns]
    conv_rhs => rw [collapseSpaceRuns]
    have hiff : (a = ' ' ∧ (replaceAllRunes (b :: r) ['\r', '\n'] ['\n']).head? = some ' ') ↔
        (a = ' ' ∧ (b :: r).head? = some ' ') := by
      rw [head?_replace_crlf_space]
    by_cases hc : a = ' ' ∧ (b :: r).head? = some ' '
    · rw [if_pos hc, if_pos (hiff.mpr hc), ih]
    · rw [if_neg hc, if_neg (fun h => hc (hiff.mp h)), ih, replaceAllRunes_cons_of_not]
      rintro ⟨ha, hb⟩
      rw [head?_collapseSpaceRuns] at hb
      simp only [List.head?_cons, Option.some.injEq] at hb
      exact hab ⟨ha, hb⟩

theorem collapseSpaceRuns_map_tab (s : List Char) :
    collapseSpaceRuns ((collapseSpaceRuns s).map (fun c => if c = '\t' then ' ' else c)) =
      collapseSpaceRuns (s.map (fun c => if c = '\t' then ' ' else c)) := by
  induction s with
  | nil => rfl
  | cons a t ih =>
    rw [collapseSpaceRuns]
    split_ifs with h
    · rw [ih, List.map_cons, collapseSpaceRuns, if_pos]
      refine ⟨by rw [h.1]; decide, ?_⟩
      rw [List.head?_map, h.2]; decide
    · rw [List.map_cons, collapseSpaceRuns_cons, ih, ← collapseSpaceRuns_cons, List.map_cons]

theorem forall₂_upToCR_refl (L : List (List Char)) : List.Forall₂ UpToCR L L := by
  induction L with
  | nil => exact List.Forall₂.nil
  | cons l r ih => exact List.Forall₂.cons (Or.inl rfl) ih

theorem forall₂_upToCR_cons (a : Char) (s1 s2 : List Char)
    (h : List.Forall₂ UpToCR (splitRunes '\n' s1) (splitRunes '\n' s2)) :
    List.Forall₂ UpToCR (splitRunes '\n' (a :: s1)) (splitRunes '\n' (a :: s2)) := by
  by_cases ha : a = '\n'
  · subst ha
    rw [splitRunes_cons_sep, splitRunes_cons_sep]
    exact List.Forall₂.cons (Or.inl rfl) h
  · obtain ⟨l1, r1, h1⟩ := List.exists_cons_of_ne_nil (splitRunes_ne_nil '\n' s1)
    obtain ⟨l2, r2, h2⟩ := List.exists_cons_of_ne_nil (splitRunes_ne_nil '\n' s2)
    rw [splitRunes_cons_ne _ _ _ _ _ ha h1, splitRunes_cons_ne _ _ _ _ _ ha h2]
    rw [h1, h2] at h
    rcases List.forall₂_cons.mp h with ⟨hl, hr⟩
    refine List.Forall₂.cons ?_ hr
    rcases hl with hl | hl
    · exact Or.inl (by rw [hl])
    · exact Or.inr (by rw [hl]; rfl)

theorem split_replace_crlf (w : List Char) :
    List.Forall₂ UpToCR (splitRunes '\n' (replaceAllRunes w ['\r', '\n'] ['\n']))
      (splitRunes '\n' w) := by
  induction w using pair_induction '\r' '\n' with
  | h0 => exact forall₂_upToCR_refl _
  | h1 a => rw [replaceAllRunes_one]; exact forall₂_upToCR_refl _
  | hmatch r ih =>
    rw [replaceAllRunes_match, List.singleton_append, splitRunes_cons_sep]
    have : splitRunes '\n' ('\r' :: '\n' :: r) = ['\r'] :: splitRunes '\n' r :=
      splitRunes_cons_ne '\n' '\r' _ [] _ (by decide) (splitRunes_cons_sep '\n' r)
    rw [this]
    exact List.Forall₂.cons (Or.inr rfl) ih
  | hnot a b r hab ih =>
    rw [replaceAllRunes_skip _ _ _ _ _ _ hab]
    exact forall₂_upToCR_cons a _ _ ih

theorem map_trim_of_upToCR (L1 L2 : List (List Char)) (h : List.Forall₂ UpToCR L1 L2) :
    L1.map trimSpaceRunes = L2.map trimSpaceRunes := by
  induction h with
  | nil => rfl
  | cons hl _ ih =>
    rw [List.map_cons, List.map_cons, ih]
    rcases hl with hl | hl
    · rw [hl]
    · rw [hl, trimSpaceRunes_concat_space _ _ (by decide)]

theorem finishRunes_replace_crlf (w : List Char) :
    finishRunes (replaceAllRunes w ['\r', '\n'] ['\n']) = finishRunes w := by
  unfold finishRunes
  rw [map_trim_of_upToCR _ _ (split_replace_crlf (replaceAllRunes w ['\r', '\n'] ['\n']))]

theorem normalizeDefinition_replace_tab (s : String) :
    normalizeDefinition (strings.ReplaceAll s "\t" " ") = normalizeDefinition s := by
  apply String.ext
  rw [normalizeDefinition_data, normalizeDefinition_data]
  have h1 : (strings.ReplaceAll s "\t" " ").data =
      s.data.map (fun c => if c = '\t' then ' ' else c) := replaceAllRunes_single '\t' ' ' s.data
  rw [h1, map_tab_of_not_mem _ (tab_not_mem_map s.data)]

theorem normalizeDefinition_replace_crlf (s : String) :
    normalizeDefinition (strings.ReplaceAll s "\r\n" "\n") = normalizeDefinition s := by
  apply String.ext
  rw [normalizeDefinition_data, normalizeDefinition_data]
  show finishRunes (collapseSpaceRuns
    ((replaceAllRunes s.data ['\r', '\n'] ['\n']).map (fun c => if c = '\t' then ' ' else c))) = _
  rw [map_tab_replace_crlf, collapseSpaceRuns_replace_crlf, finishRunes_replace_crlf]

theorem normalizeDefinition_collapseSpaces (s : String) :
    normalizeDefinition (collapseSpaces s) = normalizeDefinition s := by
  apply String.ext
  rw [normalizeDefinition_data, normalizeDefinition_data]
  show finishRunes (collapseSpaceRuns
    ((collapseSpaceRuns s.data).map (fun c => if c = '\t' then ' ' else c))) = _
  rw [collapseSpaceRuns_map_tab]

/-! ### The task of one object -/

theorem compareObject_absent (c : Comparator) (m : ObjectsMap) (ts : String) (obj : SchemaObject)
    (src : String) (hnot : m.lookup (objectKey obj) = none)
    (hsrc : c.SourceDB.GetObjectDefinition obj = .ok src) :
    compareObject c m ts obj =
      { files := [],
        appended := some { Object := obj, Exists := false, HasDifferences := true,
                           DifferenceScript := src } } := by
  simp [compareObject, hnot, hsrc]

theorem compareObject_equal (c : Comparator) (m : ObjectsMap) (ts : String)
    (obj t : SchemaObject) (src tgt : String) (hfound : m.lookup (objectKey obj) = some t)
    (hsrc : c.SourceDB.GetObjectDefinition obj = .ok src)
    (htgt : c.TargetDB.GetObjectDefinition t = .ok tgt)
    (heq : normalizeDefinition src = normalizeDefinition tgt) :
    (compareObject c m ts obj).appended = none := by
  simp [compareObject, hfound, hsrc, htgt, heq]

theorem compareObject_differ (c : Comparator) (m : ObjectsMap) (ts : String)
    (obj t : SchemaObject) (src tgt : String) (hfound : m.lookup (objectKey obj) = some t)
    (hsrc : c.SourceDB.GetObjectDefinition obj = .ok src)
    (htgt : c.TargetDB.GetObjectDefinition t = .ok tgt)
    (hne : normalizeDefinition src ≠ normalizeDefinition tgt) :
    (compareObject c m ts obj).appended =
      match generateDropStatement obj c.SourceDB with
      | (_, some _) => none
      | (dropStatement, none) =>
        some { Object := obj, Exists := true, HasDifferences := true,
               DifferenceScript := dropStatement ++ "\n" ++ src } := by
  simp only [compareObject, hfound, hsrc, htgt]
  rw [if_pos hne]
  split <;> simp_all

theorem compareObject_of_fails (c : Comparator) (m : ObjectsMap) (ts : String)
    (obj : SchemaObject) (h : taskFails c m obj) : (compareObject c m ts obj).appended = none := by
  rcases h with ⟨e, he⟩ | ⟨t, e, hfound, he⟩ | ⟨t, src, tgt, e, hfound, hsrc, htgt, hne, hty, he⟩
  · unfold compareObject
    cases hl : m.lookup (objectKey obj) <;> simp [hl, he]
  · unfold compareObject
    cases hs : c.SourceDB.GetObjectDefinition obj <;> simp [hfound, he]
  · rw [compareObject_differ c m ts obj t src tgt hfound hsrc htgt hne]
    simp [generateDropStatement, hty, he]

theorem foldl_taskStep_fst (c : Comparator) (m : ObjectsMap) (ts : String)
    (objs : List SchemaObject) (st : List DiffResult × List (String × String)) :
    (objs.foldl (taskStep c m ts) st).1 =
      st.1 ++ objs.filterMap (fun o => (compareObject c m ts o).appended) := by
  induction objs generalizing st with
  | nil => simp
  | cons o r ih =>
    rw [List.foldl_cons, ih, List.filterMap_cons]
    unfold taskStep
    cases ha : (compareObject c m ts o).appended <;> simp [ha]

theorem runTasks_fst (c : Comparator) (m : ObjectsMap) (ts : String) (objs : List SchemaObject) :
    (runTasks c m ts objs).1 =
      c.Results ++ objs.filterMap (fun o => (compareObject c m ts o).appended) :=
  foldl_taskStep_fst c m ts objs (c.Results, [])

theorem compare_ok (c : Comparator) (fs : FileSystem)
    (order : List SchemaObject → List SchemaObject) (objectTypes : List String) (ts : String)
    (srcObjs tgtObjs : List SchemaObject)
    (hmk : c.IsLoggingEnabled = true → fs.MkdirAll (logsDirName c ts) = none)
    (hsrc : c.SourceDB.GetObjectsList objectTypes = .ok srcObjs)
    (htgt : c.TargetDB.GetObjectsList objectTypes = .ok tgtObjs)
    (hcreate : fs.Create (outputFileName c objectTypes ts) = none) :
    Compare c fs order objectTypes ts =
      .ok { Results := (runTasks c (buildTargetObjectsMap tgtObjs) ts (order srcObjs)).1,
            fileName := outputFileName c objectTypes ts,
            output := scriptHeader ++
              writeResults (runTasks c (buildTargetObjectsMap tgtObjs) ts (order srcObjs)).1,
            snapshots := (runTasks c (buildTargetObjectsMap tgtObjs) ts (order srcObjs)).2 } := by
  unfold Compare
  have h1 : (if c.IsLoggingEnabled = true then fs.MkdirAll (logsDirName c ts) else none) = none := by
    split_ifs with h
    · exact hmk h
    · rfl
  simp only [h1, hsrc, htgt, hcreate]

/-! ## The claims -/

/-- C1: `normalizeDefinition` is idempotent: normalizing a normalized text returns it
unchanged, for every string. -/
theorem normalizeDefinition_idempotent (s : String) :
    normalizeDefinition (normalizeDefinition s) = normalizeDefinition s :=
  normalize_of_canonical _ (canonical_normalizeDefinition s)

/-- C2: for every string, the normalized text contains no two consecutive spaces, none
of its lines (the pieces between LF characters) begins or ends with a whitespace
character, the whole text neither begins nor ends with one, and the empty string is
mapped to the empty string. -/
theorem normalizeDefinition_shape (s : String) :
    strings.Contains (normalizeDefinition s) "  " = false ∧
    (∀ line ∈ strings.Split (normalizeDefinition s) "\n", ∀ c,
      line.data.head? = some c ∨ line.data.getLast? = some c → isSpace c = false) ∧
    (∀ c, (normalizeDefinition s).data.head? = some c ∨
      (normalizeDefinition s).data.getLast? = some c → isSpace c = false) ∧
    normalizeDefinition "" = "" := by
  obtain ⟨htab, hch, ht⟩ := canonical_normalizeDefinition s
  refine ⟨?_, ?_, ?_, by decide⟩
  · rw [contains_two_spaces]
    exact not_contains_of_chain _ (hch.imp (fun _ _ hab => hab.1))
  · intro line hline c hc
    rw [split_newline] at hline
    obtain ⟨l, hl, rfl⟩ := List.mem_map.mp hline
    have := lines_trimmed _ hch ht l hl
    rcases hc with hc | hc
    · exact this.1 c hc
    · exact this.2 c hc
  · intro c hc
    rcases hc with hc | hc
    · exact ht.1 c hc
    · exact ht.2 c hc

/-- C3: `normalizeDefinition` changes only whitespace: the non-whitespace characters of
the normalized text are those of the input, in the same order. -/
theorem normalizeDefinition_nonSpaceChars (s : String) :
    nonSpaceChars (normalizeDefinition s) = nonSpaceChars s := by
  unfold nonSpaceChars
  rw [normalizeDefinition_data, filter_finishRunes, filter_collapseSpaceRuns, filter_map_tab]

/-- C4: a definition normalizes to the same text as the definition with every tab
replaced by a space, with every CRLF replaced by LF, and with every run of spaces
replaced by a single space; hence an object that is in the target mapping and whose two
definitions are such variants of each other has no result appended. -/
theorem normalizeDefinition_whitespace_variants (s : String) :
    normalizeDefinition (strings.ReplaceAll s "\t" " ") = normalizeDefinition s ∧
    normalizeDefinition (strings.ReplaceAll s "\r\n" "\n") = normalizeDefinition s ∧
    normalizeDefinition (collapseSpaces s) = normalizeDefinition s ∧
    ∀ (c : Comparator) (m : ObjectsMap) (ts : String) (obj t : SchemaObject) (v : String),
      (v = strings.ReplaceAll s "\t" " " ∨ v = strings.ReplaceAll s "\r\n" "\n" ∨
        v = collapseSpaces s) →
      m.lookup (objectKey obj) = some t →
      ((c.SourceDB.GetObjectDefinition obj = .ok s ∧ c.TargetDB.GetObjectDefinition t = .ok v) ∨
        (c.SourceDB.GetObjectDefinition obj = .ok v ∧ c.TargetDB.GetObjectDefinition t = .ok s)) →
      (compareObject c m ts obj).appended = none := by
  refine ⟨normalizeDefinition_replace_tab s, normalizeDefinition_replace_crlf s,
    normalizeDefinition_collapseSpaces s, ?_⟩
  intro c m ts obj t v hv hfound hdefs
  have heq : normalizeDefinition v = normalizeDefinition s := by
    rcases hv with rfl | rfl | rfl
    · exact normalizeDefinition_replace_tab s
    · exact normalizeDefinition_replace_crlf s
    · exact normalizeDefinition_collapseSpaces s
  rcases hdefs with ⟨hs, ht⟩ | ⟨hs, ht⟩
  · exact compareObject_equal c m ts obj t s v hfound hs ht heq.symm
  · exact compareObject_equal c m ts obj t v s hfound hs ht heq

/-- Witness of C4: the view `dbo.V1` of the sample run, whose target definition is the
source definition with the tab replaced by a space. -/
theorem normalizeDefinition_whitespace_variants_witness :
    demoMap.lookup (objectKey demoV1) = some demoV1 ∧
    demoSource.GetObjectDefinition demoV1 = .ok "CREATE VIEW V1 AS\tSELECT 1\r\n" ∧
    demoTarget.GetObjectDefinition demoV1 =
      .ok (strings.ReplaceAll "CREATE VIEW V1 AS\tSELECT 1\r\n" "\t" " ") ∧
    (compareObject demoComparator demoMap "t" demoV1).appended = none :=
  ⟨by decide, rfl, rfl,
    (normalizeDefinition_whitespace_variants "CREATE VIEW V1 AS\tSELECT 1\r\n").2.2.2
      demoComparator demoMap "t" demoV1 demoV1 _ (Or.inl rfl) (by decide) (Or.inl ⟨rfl, rfl⟩)⟩

/-- C5: for a source object whose key is not in the target mapping and whose source
definition is fetched, the task appends exactly one result, with `Exists = false`,
`HasDifferences = true` and the raw source definition as `DifferenceScript`. -/
theorem compare_source_only (c : Comparator) (m : ObjectsMap) (ts : String) (obj : SchemaObject)
    (src : String) (hnot : m.lookup (objectKey obj) = none)
    (hsrc : c.SourceDB.GetObjectDefinition obj = .ok src) :
    (compareObject c m ts obj).appended =
      some { Object := obj, Exists := false, HasDifferences := true, DifferenceScript := src } ∧
    (runTasks c m ts [obj]).1 =
      c.Results ++
        [{ Object := obj, Exists := false, HasDifferences := true, DifferenceScript := src }] := by
  have h := compareObject_absent c m ts obj src hnot hsrc
  refine ⟨by rw [h], ?_⟩
  rw [runTasks_fst, List.filterMap_cons, h]
  rfl

/-- Witness of C5: the table `dbo.Orders` of the sample run, absent from the target. -/
theorem compare_source_only_witness :
    demoMap.lookup (objectKey demoOrders) = none ∧
    demoComparator.SourceDB.GetObjectDefinition demoOrders =
      .ok "CREATE TABLE [dbo].[Orders] (\n    [id] [int] NOT NULL\n);\nGO\n\n" ∧
    (compareObject demoComparator demoMap "t" demoOrders).appended =
      some { Object := demoOrders, Exists := false, HasDifferences := true,
             DifferenceScript := "CREATE TABLE [dbo].[Orders] (\n    [id] [int] NOT NULL\n);\nGO\n\n" } :=
  ⟨by decide, rfl, (compare_source_only demoComparator demoMap "t" demoOrders _ (by decide) rfl).1⟩

/-- C6: for a source object found in the target mapping, with both definitions fetched,
differing normalized forms and a drop statement obtained without error, the result
appended has `Exists = true`, `HasDifferences = true` and `DifferenceScript` equal to the
drop statement, a line feed and the raw source definition. -/
theorem compare_differing (c : Comparator) (m : ObjectsMap) (ts : String) (obj t : SchemaObject)
    (src tgt : String) (hfound : m.lookup (objectKey obj) = some t)
    (hsrc : c.SourceDB.GetObjectDefinition obj = .ok src)
    (htgt : c.TargetDB.GetObjectDefinition t = .ok tgt)
    (hne : normalizeDefinition src ≠ normalizeDefinition tgt)
    (hdrop : (generateDropStatement obj c.SourceDB).2 = none) :
    (compareObject c m ts obj).appended =
      some { Object := obj, Exists := true, HasDifferences := true,
             DifferenceScript := (generateDropStatement obj c.SourceDB).1 ++ "\n" ++ src } := by
  rw [compareObject_differ c m ts obj t src tgt hfound hsrc htgt hne]
  rcases hg : generateDropStatement obj c.SourceDB with ⟨d, e⟩
  rw [hg] at hdrop
  simp only at hdrop
  subst hdrop
  rfl

/-- Witness of C6: the procedure `dbo.P1` of the sample run. -/
theorem compare_differing_witness :
    demoMap.lookup (objectKey demoP1) = some demoP1 ∧
    normalizeDefinition "CREATE PROCEDURE P1 AS SELECT 2" ≠
      normalizeDefinition "CREATE PROCEDURE P1 AS SELECT 1" ∧
    (compareObject demoComparator demoMap "t" demoP1).appended =
      some { Object := demoP1, Exists := true, HasDifferences := true,
             DifferenceScript :=
               (generateDropStatement demoP1 demoComparator.SourceDB).1 ++ "\n" ++
                 "CREATE PROCEDURE P1 AS SELECT 2" } :=
  ⟨by decide, by decide,
    compare_differing demoComparator demoMap "t" demoP1 demoP1 "CREATE PROCEDURE P1 AS SELECT 2"
      "CREATE PROCEDURE P1 AS SELECT 1" (by decide) rfl rfl (by decide) (by decide)⟩

/-- C7: for a source object found in the target mapping, with both definitions fetched
and equal normalized forms, nothing is appended to `Results`. -/
theorem compare_equal_no_outcome (c : Comparator) (m : ObjectsMap) (ts : String)
    (obj t : SchemaObject) (src tgt : String) (hfound : m.lookup (objectKey obj) = some t)
    (hsrc : c.SourceDB.GetObjectDefinition obj = .ok src)
    (htgt : c.TargetDB.GetObjectDefinition t = .ok tgt)
    (heq : normalizeDefinition src = normalizeDefinition tgt) :
    (compareObject c m ts obj).appended = none ∧ (runTasks c m ts [obj]).1 = c.Results := by
  have h := compareObject_equal c m ts obj t src tgt hfound hsrc htgt heq
  refine ⟨h, ?_⟩
  rw [runTasks_fst, List.filterMap_cons, h]
  simp

/-- Witness of C7: the view `dbo.V1` of the sample run. -/
theorem compare_equal_no_outcome_witness :
    demoMap.lookup (objectKey demoV1) = some demoV1 ∧
    normalizeDefinition "CREATE VIEW V1 AS\tSELECT 1\r\n" =
      normalizeDefinition "CREATE VIEW V1 AS SELECT 1\r\n" ∧
    (runTasks demoComparator demoMap "t" [demoV1]).1 = demoComparator.Results :=
  ⟨by decide, by decide,
    (compare_equal_no_outcome demoComparator demoMap "t" demoV1 demoV1
      "CREATE VIEW V1 AS\tSELECT 1\r\n" "CREATE VIEW V1 AS SELECT 1\r\n"
      (by decide) rfl rfl (by decide)).2⟩

/-- C8: a failing fetch is isolated. If the task of `obj` meets a failing fetch, it appends
no result, `Compare` returns no error (the two listings and the file-system calls
succeeding), and the results and the script are those of the run whose source listing
lacks `obj`, the other tasks finishing in the same order. -/
theorem compare_failure_isolated (c : Comparator) (fs : FileSystem)
    (order order2 : List SchemaObject → List SchemaObject) (objectTypes : List String)
    (ts : String) (srcObjs srcObjs2 tgtObjs : List SchemaObject)
    (q2 : String → Except String (List SchemaObject)) (obj : SchemaObject)
    (before after : List SchemaObject)
    (hmk : c.IsLoggingEnabled = true → fs.MkdirAll (logsDirName c ts) = none)
    (hsrc : c.SourceDB.GetObjectsList objectTypes = .ok srcObjs)
    (htgt : c.TargetDB.GetObjectsList objectTypes = .ok tgtObjs)
    (hcreate : fs.Create (outputFileName c objectTypes ts) = none)
    (hsrc2 : Database.GetObjectsList { c.SourceDB with queryObjects := q2 } objectTypes =
      .ok srcObjs2)
    (horder : order srcObjs = before ++ obj :: after)
    (horder2 : order2 srcObjs2 = before ++ after)
    (hfail : taskFails c (buildTargetObjectsMap tgtObjs) obj) :
    (compareObject c (buildTargetObjectsMap tgtObjs) ts obj).appended = none ∧
    ∃ run run2,
      Compare c fs order objectTypes ts = .ok run ∧
      Compare { c with SourceDB := { c.SourceDB with queryObjects := q2 } } fs order2
        objectTypes ts = .ok run2 ∧
      run.Results = run2.Results ∧ run.output = run2.output ∧
      run.Results = c.Results ++ (before ++ after).filterMap
        (fun o => (compareObject c (buildTargetObjectsMap tgtObjs) ts o).appended) := by
  have hnone := compareObject_of_fails c (buildTargetObjectsMap tgtObjs) ts obj hfail
  have h1 := compare_ok c fs order objectTypes ts srcObjs tgtObjs hmk hsrc htgt hcreate
  have h2 := compare_ok { c with SourceDB := { c.SourceDB with queryObjects := q2 } } fs order2
    objectTypes ts srcObjs2 tgtObjs hmk hsrc2 htgt hcreate
  have hres : (runTasks c (buildTargetObjectsMap tgtObjs) ts (order srcObjs)).1 =
      (runTasks { c with SourceDB := { c.SourceDB with queryObjects := q2 } }
        (buildTargetObjectsMap tgtObjs) ts (order2 srcObjs2)).1 := by
    rw [runTasks_fst, runTasks_fst, horder, horder2, List.filterMap_append,
      List.filterMap_append, List.filterMap_cons, hnone]
    rfl
  refine ⟨hnone, _, _, h1, h2, hres, ?_, ?_⟩
  · show scriptHeader ++ writeResults _ = scriptHeader ++ writeResults _
    rw [hres]
  · show (runTasks c (buildTargetObjectsMap tgtObjs) ts (order srcObjs)).1 = _
    rw [runTasks_fst, horder, List.filterMap_append, List.filterMap_append,
      List.filterMap_cons, hnone]

/-- Witness of C8: the table `dbo.Bad` of the sample run, whose definition cannot be
fetched, finishing second of four. -/
theorem compare_failure_isolated_witness :
    taskFails demoComparator (buildTargetObjectsMap [demoP1, demoV1]) demoBad ∧
    ∃ run run2,
      Compare demoComparator demoFS id ["TABLE", "VIEW", "PROCEDURE"] "t" = .ok run ∧
      Compare { demoComparator with
          SourceDB := { demoComparator.SourceDB with
            queryObjects := fun _ => .ok [demoP1, demoOrders, demoV1] } }
        demoFS id ["TABLE", "VIEW", "PROCEDURE"] "t" = .ok run2 ∧
      run.Results = run2.Results ∧ run.output = run2.output ∧
      run.Results = demoComparator.Results ++ ([demoP1] ++ [demoOrders, demoV1]).filterMap
        (fun o => (compareObject demoComparator (buildTargetObjectsMap [demoP1, demoV1]) "t"
          o).appended) :=
  ⟨Or.inl ⟨_, rfl⟩,
    (compare_failure_isolated demoComparator demoFS id id ["TABLE", "VIEW", "PROCEDURE"] "t"
      [demoP1, demoBad, demoOrders, demoV1] [demoP1, demoOrders, demoV1] [demoP1, demoV1]
      (fun _ => .ok [demoP1, demoOrders, demoV1]) demoBad [demoP1] [demoOrders, demoV1]
      (fun _ => rfl) rfl rfl rfl rfl rfl rfl (Or.inl ⟨_, rfl⟩)).2⟩

/-- C9: for an object whose kind is not `USER_TABLE`, `generateDropStatement` returns no
error, and returns the statement of the kind followed by a line `GO`: the `IF OBJECT_ID ...
DROP ...` statement with `V`/`VIEW`, `P`/`PROCEDURE`, `FN`/`FUNCTION` (three kinds) or
`TR`/`TRIGGER`, and for any other kind a comment saying that the type is unknown and must
be deleted manually. -/
theorem generateDropStatement_not_table (obj : SchemaObject) (db : Database)
    (h : obj.Type_ ≠ "USER_TABLE") :
    (generateDropStatement obj db).2 = none ∧
    (obj.Type_ = "VIEW" → (generateDropStatement obj db).1 =
      dropTemplate "V" "VIEW" obj.Schema obj.Name ++ "\nGO") ∧
    (obj.Type_ = "SQL_STORED_PROCEDURE" → (generateDropStatement obj db).1 =
      dropTemplate "P" "PROCEDURE" obj.Schema obj.Name ++ "\nGO") ∧
    (obj.Type_ = "SQL_SCALAR_FUNCTION" ∨ obj.Type_ = "SQL_INLINE_TABLE_VALUED_FUNCTION" ∨
      obj.Type_ = "SQL_TABLE_VALUED_FUNCTION" → (generateDropStatement obj db).1 =
      dropTemplate "FN" "FUNCTION" obj.Schema obj.Name ++ "\nGO") ∧
    (obj.Type_ = "SQL_TRIGGER" → (generateDropStatement obj db).1 =
      dropTemplate "TR" "TRIGGER" obj.Schema obj.Name ++ "\nGO") ∧
    (obj.Type_ ∉ ["VIEW", "SQL_STORED_PROCEDURE", "SQL_SCALAR_FUNCTION",
        "SQL_INLINE_TABLE_VALUED_FUNCTION", "SQL_TABLE_VALUED_FUNCTION", "SQL_TRIGGER"] →
      (generateDropStatement obj db).1 =
        "-- Unknown object type: " ++ obj.Type_ ++ ". It must be deleted manually." ++ "\nGO") := by
  have tpl : ∀ (a b S N : String) (lit : String),
      lit.data = ("]', '" ++ a ++ "') IS NOT NULL DROP " ++ b ++ " [").data →
      "IF OBJECT_ID('[" ++ S ++ "].[" ++ N ++ lit ++ S ++ "].[" ++ N ++ "];" =
        dropTemplate a b S N := by
    intro a b S N lit hlit
    apply String.ext
    simp only [dropTemplate, String.data_append] at hlit ⊢
    rw [hlit]
    simp only [List.append_assoc]
  refine ⟨?_, ?_, ?_, ?_, ?_, ?_⟩
  · unfold generateDropStatement
    simp only [if_neg h]
    split_ifs <;> rfl
  · intro hv
    have hv2 : obj.Type_ = "VIEW" := hv
    unfold generateDropStatement
    simp only [if_neg h, if_pos hv2]
    rw [tpl "V" "VIEW" _ _ _ (by decide)]
  · intro hv
    have h1 : ¬ obj.Type_ = "VIEW" := by rw [hv]; decide
    unfold generateDropStatement
    simp only [if_neg h, if_neg h1, if_pos hv]
    rw [tpl "P" "PROCEDURE" _ _ _ (by decide)]
  · intro hv
    have h1 : ¬ obj.Type_ = "VIEW" := by rcases hv with hv | hv | hv <;> rw [hv] <;> decide
    have h2 : ¬ obj.Type_ = "SQL_STORED_PROCEDURE" := by
      rcases hv with hv | hv | hv <;> rw [hv] <;> decide
    unfold generateDropStatement
    simp only [if_neg h, if_neg h1, if_neg h2, if_pos hv]
    rw [tpl "FN" "FUNCTION" _ _ _ (by decide)]
  · intro hv
    have h1 : ¬ obj.Type_ = "VIEW" := by rw [hv]; decide
    have h2 : ¬ obj.Type_ = "SQL_STORED_PROCEDURE" := by rw [hv]; decide
    have h3 : ¬ (obj.Type_ = "SQL_SCALAR_FUNCTION" ∨
        obj.Type_ = "SQL_INLINE_TABLE_VALUED_FUNCTION" ∨
        obj.Type_ = "SQL_TABLE_VALUED_FUNCTION") := by rw [hv]; decide
    unfold generateDropStatement
    simp only [if_neg h, if_neg h1, if_neg h2, if_neg h3, if_pos hv]
    rw [tpl "TR" "TRIGGER" _ _ _ (by decide)]
  · intro hv
    simp only [List.mem_cons, List.mem_singleton, List.not_mem_nil, or_false, not_or] at hv
    obtain ⟨h1, h2, h3, h4, h5, h6⟩ := hv
    have h345 : ¬ (obj.Type_ = "SQL_SCALAR_FUNCTION" ∨
        obj.Type_ = "SQL_INLINE_TABLE_VALUED_FUNCTION" ∨
        obj.Type_ = "SQL_TABLE_VALUED_FUNCTION") := by
      rintro (e | e | e)
      · exact h3 e
      · exact h4 e
      · exact h5 e
    unfold generateDropStatement
    simp only [if_neg h, if_neg h1, if_neg h2, if_neg h345, if_neg h6]

/-- Witness of C9: the view `dbo.V1`. -/
theorem generateDropStatement_not_table_witness :
    demoV1.Type_ ≠ "USER_TABLE" ∧ demoV1.Type_ = "VIEW" ∧
    generateDropStatement demoV1 demoSource =
      ("IF OBJECT_ID('[dbo].[V1]', 'V') IS NOT NULL DROP VIEW [dbo].[V1];\nGO", none) :=
  ⟨by decide, by decide,
    Prod.ext
      (((generateDropStatement_not_table demoV1 demoSource (by decide)).2.1 (by decide)).trans
        (by decide))
      (generateDropStatement_not_table demoV1 demoSource (by decide)).1⟩

/-- C10: what `Compare` writes for the run in which the source lists the view `dbo.V2`
alone and the target lists nothing: the header, the comment line of the object, then the
script with `GO` appended to its last line, so that no line of the output file is the
batch separator `GO`. -/
theorem compare_output_go_not_on_own_line :
    ∃ run, Compare viewOnlyComparator demoFS id ["VIEW"] "t" = .ok run ∧
      run.Results =
        [{ Object := demoV2, Exists := false, HasDifferences := true,
           DifferenceScript := "CREATE VIEW [dbo].[V2] AS SELECT 1" }] ∧
      run.output =
        "-- Schema comparison script\n-- Differences found between databases\n\n" ++
        "-- Object: dbo.V2 (VIEW)\n" ++ "CREATE VIEW [dbo].[V2] AS SELECT 1GO\n\n" ∧
      strings.Split run.output "\n" =
        ["-- Schema comparison script", "-- Differences found between databases", "",
         "-- Object: dbo.V2 (VIEW)", "CREATE VIEW [dbo].[V2] AS SELECT 1GO", "", ""] ∧
      "GO" ∉ strings.Split run.output "\n" :=
  ⟨_, rfl, by decide, by decide, by decide, by decide⟩

/-! ### Listing and matching objects -/

theorem lookup_foldl_mem (k : String) (l : List SchemaObject) (acc : ObjectsMap) (t : SchemaObject)
    (h : (l.foldl (fun m obj => (objectKey obj, obj) :: m) acc).lookup k = some t) :
    (t ∈ l ∧ objectKey t = k) ∨ acc.lookup k = some t := by
  induction l generalizing acc with
  | nil => exact Or.inr h
  | cons o r ih =>
    rw [List.foldl_cons] at h
    rcases ih _ h with ⟨hm, hk⟩ | h2
    · exact Or.inl ⟨List.mem_cons_of_mem _ hm, hk⟩
    · rw [List.lookup_cons] at h2
      by_cases hko : k = objectKey o
      · have hb : (k == objectKey o) = true := by simp [hko]
        rw [hb] at h2
        simp only [Option.some.injEq] at h2
        subst h2
        exact Or.inl ⟨List.mem_cons_self _ _, hko.symm⟩
      · have hb : (k == objectKey o) = false := by simp [hko]
        rw [hb] at h2
        exact Or.inr h2

theorem lookup_foldl_isSome (k : String) (l : List SchemaObject) (acc : ObjectsMap)
    (h : (∃ t ∈ l, objectKey t = k) ∨ (acc.lookup k).isSome = true) :
    ((l.foldl (fun m obj => (objectKey obj, obj) :: m) acc).lookup k).isSome = true := by
  induction l generalizing acc with
  | nil =>
    rcases h with ⟨t, ht, _⟩ | h
    · simp at ht
    · exact h
  | cons o r ih =>
    rw [List.foldl_cons]
    apply ih
    rcases h with ⟨t, ht, hk⟩ | h
    · rcases List.mem_cons.mp ht with rfl | ht
      · right
        rw [List.lookup_cons]
        simp [hk]
      · exact Or.inl ⟨t, ht, hk⟩
    · right
      rw [List.lookup_cons]
      cases hb : (k == objectKey o)
      · exact h
      · rfl

theorem append_dot_inj (a a2 r r2 : List Char) (ha : '.' ∉ a) (ha2 : '.' ∉ a2)
    (h : a ++ '.' :: r = a2 ++ '.' :: r2) : a = a2 ∧ r = r2 := by
  induction a generalizing a2 with
  | nil =>
    cases a2 with
    | nil => simpa using h
    | cons c t =>
      simp only [List.nil_append, List.cons_append, List.cons.injEq] at h
      exact absurd (h.1 ▸ List.mem_cons_self _ _) ha2
  | cons b t ih =>
    cases a2 with
    | nil =>
      simp only [List.nil_append, List.cons_append, List.cons.injEq] at h
      exact absurd (h.1 ▸ List.mem_cons_self _ _) ha
    | cons c t2 =>
      simp only [List.cons_append, List.cons.injEq] at h
      obtain ⟨h1, h2⟩ := ih t2 (fun hm => ha (List.mem_cons_of_mem _ hm))
        (fun hm => ha2 (List.mem_cons_of_mem _ hm)) h.2
      exact ⟨by rw [h.1, h1], h2⟩

theorem objectKey_data (o : SchemaObject) :
    (objectKey o).data = o.Schema.data ++ '.' :: (o.Name.data ++ '.' :: o.Type_.data) := by
  unfold objectKey
  simp only [String.data_append, List.append_assoc]
  rfl

theorem sameTriple_of_objectKey (a b : SchemaObject) (ha : dotFree a) (hb : dotFree b)
    (h : objectKey a = objectKey b) : sameTriple a b := by
  have hd := congrArg String.data h
  rw [objectKey_data, objectKey_data] at hd
  obtain ⟨h1, h2⟩ := append_dot_inj _ _ _ _ ha.1 hb.1 hd
  obtain ⟨h3, h4⟩ := append_dot_inj _ _ _ _ ha.2 hb.2 h2
  exact ⟨String.ext h1, String.ext h3, String.ext h4⟩

theorem objectKey_of_sameTriple (a b : SchemaObject) (h : sameTriple a b) :
    objectKey a = objectKey b := by
  unfold objectKey
  rw [h.1, h.2.1, h.2.2]

theorem eq_of_sameTriple_of_pairwise (l : List SchemaObject)
    (huniq : l.Pairwise (fun a b => ¬ sameTriple a b)) (a b : SchemaObject) (ha : a ∈ l)
    (hb : b ∈ l) (h : sameTriple a b) : a = b := by
  induction l with
  | nil => simp at ha
  | cons x r ih =>
    rw [List.pairwise_cons] at huniq
    rcases List.mem_cons.mp ha with rfl | ha2
    · rcases List.mem_cons.mp hb with rfl | hb2
      · rfl
      · exact absurd h (huniq.1 b hb2)
    · rcases List.mem_cons.mp hb with rfl | hb2
      · exact absurd ⟨h.1.symm, h.2.1.symm, h.2.2.symm⟩ (huniq.1 a ha2)
      · exact ih huniq.2 ha2 hb2

/-- C11: what `GetObjectsList` does with unknown categories. The empty request returns no
objects without a query, and an unknown category next to a known one is dropped from the
kind list; but for a request holding only an unknown category the catalog query is issued
all the same, with an empty kind list, and on a server that rejects `IN ()` the call
returns that error. -/
theorem getObjectsList_unknown_only :
    (∀ d : Database, d.GetObjectsList [] = .ok []) ∧
    (∀ d : Database, d.GetObjectsList ["SEQUENCE", "VIEW"] = d.queryObjects "'VIEW'") ∧
    (∀ d : Database, d.GetObjectsList ["SEQUENCE"] = d.queryObjects "") ∧
    demoStrict.GetObjectsList ["SEQUENCE"] = .error "mssql: Incorrect syntax near ')'." :=
  ⟨fun _ => rfl, fun _ => rfl, fun _ => rfl, rfl⟩

/-- C12, as stated, fails: the target listing holds the single view `eu.orders` of schema
`sales`, the source object is the view `orders` of schema `sales.eu`; the lookup finds the
target object although no target object has the schema and the name of the source object. -/
theorem lookup_matches_other_triple :
    [dotTarget].Pairwise (fun a b => ¬ sameTriple a b) ∧
    (buildTargetObjectsMap [dotTarget]).lookup (objectKey dotSource) = some dotTarget ∧
    ¬ sameTriple dotTarget dotSource ∧
    ¬ ∃ t ∈ [dotTarget], sameTriple t dotSource := by
  refine ⟨by decide, by decide, by decide, by decide⟩

/-- C12, amended: when the schemas and the names of the source object and of the target
objects contain no dot and the target listing has unique (schema, name, kind) triples, the
lookup of `Compare` finds `t` if and only if `t` is a target object with the schema, the
name and the kind of the source object. -/
theorem lookup_by_triple (s : SchemaObject) (targets : List SchemaObject)
    (huniq : targets.Pairwise (fun a b => ¬ sameTriple a b))
    (hs : dotFree s) (ht : ∀ t ∈ targets, dotFree t) (t : SchemaObject) :
    (buildTargetObjectsMap targets).lookup (objectKey s) = some t ↔
      (t ∈ targets ∧ sameTriple t s) := by
  constructor
  · intro h
    rcases lookup_foldl_mem _ _ _ _ h with ⟨hm, hk⟩ | h2
    · exact ⟨hm, sameTriple_of_objectKey t s (ht t hm) hs hk⟩
    · simp at h2
  · rintro ⟨hm, hst⟩
    have hsome := lookup_foldl_isSome (objectKey s) targets []
      (Or.inl ⟨t, hm, objectKey_of_sameTriple t s hst⟩)
    obtain ⟨t2, ht2⟩ := Option.isSome_iff_exists.mp hsome
    have ht2b : (buildTargetObjectsMap targets).lookup (objectKey s) = some t2 := ht2
    rcases lookup_foldl_mem _ _ _ _ ht2 with ⟨hm2, hk2⟩ | h2
    · have hst2 := sameTriple_of_objectKey t2 s (ht t2 hm2) hs hk2
      have : t2 = t := eq_of_sameTriple_of_pairwise targets huniq t2 t hm2 hm
        ⟨hst2.1.trans hst.1.symm, hst2.2.1.trans hst.2.1.symm, hst2.2.2.trans hst.2.2.symm⟩
      rw [ht2b, this]
    · simp at h2

/-- Witness of the amended C12: the view `dbo.V1` in the target listing of the sample run. -/
theorem lookup_by_triple_witness :
    [demoP1, demoV1].Pairwise (fun a b => ¬ sameTriple a b) ∧ dotFree demoV1 ∧
    (∀ t ∈ [demoP1, demoV1], dotFree t) ∧
    ((buildTargetObjectsMap [demoP1, demoV1]).lookup (objectKey demoV1) = some demoV1 ↔
      (demoV1 ∈ [demoP1, demoV1] ∧ sameTriple demoV1 demoV1)) :=
  ⟨by decide, by decide, by decide,
    lookup_by_triple demoV1 [demoP1, demoV1] (by decide) (by decide) (by decide) demoV1⟩

/-- C13: with debug logging enabled, the task of the view `dbo.V1` of the sample run, whose
normalized definitions are equal on both sides, writes the snapshot file `SOURCE-VIEW-dbo-V1.sql`
and no `TARGET` file, and appends no result. -/
theorem source_snapshot_written_for_equal :
    normalizeDefinition "CREATE VIEW V1 AS\tSELECT 1\r\n" =
      normalizeDefinition "CREATE VIEW V1 AS SELECT 1\r\n" ∧
    (compareObject demoLoggingComparator demoMap "t" demoV1).files =
      [("logs-src-tgt-t/SOURCE-VIEW-dbo-V1.sql", "CREATE VIEW V1 AS SELECT 1")] ∧
    (compareObject demoLoggingComparator demoMap "t" demoV1).appended = none ∧
    (compareObject demoLoggingComparator demoMap "t" demoP1).files =
      [("logs-src-tgt-t/SOURCE-SQL_STORED_PROCEDURE-dbo-P1.sql", "CREATE PROCEDURE P1 AS SELECT 2"),
       ("logs-src-tgt-t/TARGET-SQL_STORED_PROCEDURE-dbo-P1.sql", "CREATE PROCEDURE P1 AS SELECT 1")] := by
  refine ⟨by decide, by decide, by decide, by decide⟩

end Dbgo
